import Mathlib

/-!
# Verification of the `widgets` tree widget (drag-and-drop reordering)

Shallow embedding of the tree widget core from `src/tree.rs` and
`src/tree/tree_node.rs`: the flattened branch registry, the persisted
`branch_order` (`BranchState` entries), visibility resolution, the drag
state machine, the reorder engine, and the companion `TreeNode` structure.

Widths, heights and rendering are out of scope; pointer coordinates are
modelled over `ℚ` (the source uses `f32`, and every boundary case examined
here is exactly representable).  `u16` depth arithmetic is modelled on `ℕ`
with the source's `.max(0)` clamp made explicit via `Int.toNat`; no claim
involves depths anywhere near the `u16` range, so the 16-bit wrap is not
modelled.  Source functions that walk parent links recurse without a
structural bound (they terminate exactly when the walked structure is
acyclic); they are embedded with an explicit fuel of `length + 1`, which
is proved sufficient for acyclic structures (`iter_parent_none_of_forest`).
-/

namespace Widgets

/-! ## Generic parent-link machinery

`f : Nat → Option Nat` abstracts a "parent of" partial function (as induced
by a list of order entries or by the flattened descriptors). -/

/-- `AncF f x y`: starting from `x` and following parent links via `f`
(at least one step), the walk reaches `y`; i.e. `y` is a strict ancestor
of `x`. -/
inductive AncF (f : Nat → Option Nat) : Nat → Nat → Prop
  | step {x y : Nat} : f x = some y → AncF f x y
  | trans {x y z : Nat} : f x = some y → AncF f y z → AncF f x z

/-- A parent function is a forest when no node is its own strict ancestor. -/
def IsForestF (f : Nat → Option Nat) : Prop :=
  ∀ x : Nat, ¬ AncF f x x

/-- `y` is `x` itself or a strict ancestor of `x`. -/
def AncSelfF (f : Nat → Option Nat) (x y : Nat) : Prop :=
  x = y ∨ AncF f x y

/-- Iterated parent steps: `iterPar f k x` follows `k` parent links from
`x`, `none` if the walk ends (a root is reached) strictly before `k` steps. -/
def iterPar (f : Nat → Option Nat) : Nat → Nat → Option Nat
  | 0, x => some x
  | k + 1, x => (f x).bind (iterPar f k)

/-! ## Data model (`tree.rs`)

`BranchState` is one persisted order entry (`struct BranchState`), and
`Branch_` one flattened descriptor (`struct Branch_`; the render-only
`align_x`/`align_y` fields are omitted). -/

structure BranchState where
  id : Nat
  parent_id : Option Nat
  depth : Nat
  deriving DecidableEq, Repr, Inhabited

structure Branch_ where
  id : Nat
  external_id : Nat
  parent_id : Option Nat
  depth : Nat
  has_children : Bool
  accepts_drops : Bool
  draggable : Bool
  deriving DecidableEq, Repr, Inhabited

inductive DropPosition
  | Before
  | After
  | Into
  deriving DecidableEq, Repr

/-- The parent function induced by a list of order entries: the
`states.iter().find(|s| s.id == id)` pattern used throughout the source. -/
def parentOf (states : List BranchState) (x : Nat) : Option Nat :=
  (states.find? (fun bs => bs.id = x)).bind (fun bs => bs.parent_id)

/-- Well-formed persisted order: one entry per id, and the parent links
form a forest (no entry is its own ancestor). -/
def WFOrder (states : List BranchState) : Prop :=
  (states.map (fun bs => bs.id)).Nodup ∧ IsForestF (parentOf states)

/-- Pointer coordinates (`iced::Point`/`Vector`), on `ℚ` in place of `f32`. -/
abbrev Pt := ℚ × ℚ

/-- Row geometry (`iced::Rectangle`), on `ℚ` in place of `f32`. -/
structure Rect where
  x : ℚ
  y : ℚ
  w : ℚ
  h : ℚ
  deriving DecidableEq, Repr

/-- `struct DragPending` (tree.rs). -/
structure DragPending where
  start_position : Pt
  branch_ids : List Nat
  primary_branch_id : Nat
  branch_bounds : Rect
  click_offset : Pt
  deriving DecidableEq, Repr

/-- `struct DragActive` (tree.rs). -/
structure DragActive where
  dragged_nodes : List Nat
  primary_node : Nat
  drag_start_bounds : Rect
  click_offset : Pt
  current_position : Pt
  drop_target : Option Nat
  drop_position : DropPosition
  deriving DecidableEq, Repr

/-- Keyboard modifiers; only `control()`/`command()` are consulted by the
tree code. -/
structure Modifiers where
  control : Bool
  command : Bool
  deriving DecidableEq, Repr

/-- `struct TreeState` (tree.rs).  The `HashSet` fields are modelled as
lists (all source reads are membership tests); the per-frame geometry
caches (`branch_heights`, `branch_widths`, `visible_branches`) and hover
fields are render-plumbing and omitted. -/
structure TreeState where
  expanded : List Nat
  selected : List Nat
  focused : Option Nat
  drag_pending : Option DragPending
  drag_active : Option DragActive
  branch_order : Option (List BranchState)
  current_modifiers : Modifiers
  deriving DecidableEq, Repr

/-! ## Reorder engine (`DragOverlay::reorder_branches` and helpers) -/

/-- `collect_branch_and_descendants` (tree.rs): inserts `branch_id`, then
recurses into every entry whose `parent_id` is `branch_id`.  The source
recursion has no structural bound (it terminates exactly on acyclic
orders); the embedding carries explicit fuel. -/
def collect_branch_and_descendants (fuel : Nat) (branch_id : Nat)
    (result : List Nat) (current_order : List BranchState) : List Nat :=
  match fuel with
  | 0 => result
  | fuel + 1 =>
    let result := branch_id :: result
    let children := (current_order.filter
      (fun bs => bs.parent_id = some branch_id)).map (fun bs => bs.id)
    children.foldl
      (fun acc child_id =>
        collect_branch_and_descendants fuel child_id acc current_order)
      result

/-- The transitive closure of the dragged ids (step 1 of the reorder). -/
def items_to_move (dragged_ids : List Nat) (current_order : List BranchState) :
    List Nat :=
  dragged_ids.foldl
    (fun acc id =>
      collect_branch_and_descendants (current_order.length + 1) id acc
        current_order)
    []

/-- `is_descendant_of` (tree.rs): walk parent links from `potential_child`
until `potential_ancestor` appears as a parent, a root or an unknown id is
reached.  Fuel bounds the source's unbounded `while let` walk. -/
def is_descendant_of (fuel : Nat) (potential_child potential_ancestor : Nat)
    (states : List BranchState) : Bool :=
  match fuel with
  | 0 => false
  | fuel + 1 =>
    match states.find? (fun s => s.id = potential_child) with
    | none => false
    | some bs =>
      if bs.parent_id = some potential_ancestor then true
      else
        match bs.parent_id with
        | some p => is_descendant_of fuel p potential_ancestor states
        | none => false

/-- `state_map.get(&target_id)`: the source collects the order into a
`HashMap` by successive inserts, so a duplicated id resolves to the last
entry. -/
def state_map_get (current_order : List BranchState) (target_id : Nat) :
    Option BranchState :=
  current_order.reverse.find? (fun bs => bs.id = target_id)

/-- Step 3 of the reorder: new parent and base depth for the dragged roots,
including the `After`-at-end pop-to-root special case. -/
def new_parent_base_depth (new_order : List BranchState)
    (target_id : Nat) (target_state : BranchState)
    (drop_position : DropPosition) : Option Nat × Nat :=
  match drop_position with
  | DropPosition.Before => (target_state.parent_id, target_state.depth)
  | DropPosition.After =>
    let is_last_item : Bool :=
      match (new_order.reverse.findIdx? (fun bs => bs.id = target_id)).map
          (fun i => new_order.length - 1 - i) with
      | none => false
      | some idx =>
        decide (idx = new_order.length - 1) ||
          ! ((new_order.drop (idx + 1)).any
            (fun bs => bs.parent_id = target_state.parent_id))
    if is_last_item && target_state.parent_id.isSome then
      let has_root_siblings_after : Bool :=
        (((new_order.dropWhile (fun bs => bs.id ≠ target_id)).drop 1).any
          (fun bs => bs.parent_id = none))
      if ! has_root_siblings_after then (none, 0)
      else (target_state.parent_id, target_state.depth)
    else (target_state.parent_id, target_state.depth)
  | DropPosition.Into => (some target_id, target_state.depth + 1)

/-- The `After` skip loop (step 4 of the reorder), with the loop's
decreasing measure `length - idx` as structural fuel. -/
def skip_descendants_go (new_order : List BranchState) (target_id : Nat) :
    Nat → Nat → Nat
  | 0, idx => idx
  | fuel + 1, idx =>
    if h : idx < new_order.length then
      if is_descendant_of (new_order.length + 1)
          (new_order.get ⟨idx, h⟩).id target_id new_order then
        skip_descendants_go new_order target_id fuel (idx + 1)
      else idx
    else idx

/-- The `After` skip loop: advance past entries that are descendants of
the target. -/
def skip_descendants (new_order : List BranchState) (target_id : Nat)
    (idx : Nat) : Nat :=
  skip_descendants_go new_order target_id (new_order.length - idx) idx

/-- Step 4 of the reorder: the insertion index into the kept list. -/
def insertion_index (new_order : List BranchState) (target_id : Nat)
    (drop_position : DropPosition) : Nat :=
  match drop_position with
  | DropPosition.Before =>
    (new_order.findIdx? (fun bs => bs.id = target_id)).getD new_order.length
  | DropPosition.Into =>
    ((new_order.findIdx? (fun bs => bs.id = target_id)).getD
      new_order.length) + 1
  | DropPosition.After =>
    let idx := ((new_order.findIdx? (fun bs => bs.id = target_id)).map
      (fun i => i + 1)).getD new_order.length
    skip_descendants new_order target_id idx

/-- `Vec::insert`: in-bounds insertion, `none` models the source's panic
when the index exceeds the length. -/
def vec_insert (l : List BranchState) (i : Nat) (a : BranchState) :
    Option (List BranchState) :=
  if i ≤ l.length then some (l.take i ++ a :: l.drop i) else none

/-- The insertion loop of the reorder (step 6): each item goes in at
`insertion_index + insert_offset`, the offset growing by one per item. -/
def insert_items (acc : List BranchState) (idx : Nat) :
    List BranchState → Option (List BranchState)
  | [] => some acc
  | item :: rest =>
    (vec_insert acc idx item).bind (fun acc' => insert_items acc' (idx + 1) rest)

/-- Step 5 of the reorder: the dragged roots take the new parent and base
depth; the other removed items (their carried descendants) shift depth by
`depth_change`, clamped at 0 (`.max(0)`). -/
def reassign_removed (removed_items : List BranchState)
    (dragged_ids : List Nat) (new_parent_id : Option Nat)
    (new_base_depth : Nat) (depth_change : Int) : List BranchState :=
  removed_items.map (fun bs =>
    if dragged_ids.contains bs.id then
      { bs with parent_id := new_parent_id, depth := new_base_depth }
    else
      { bs with depth := ((bs.depth : Int) + depth_change).toNat })

/-- Step 5–6 of the reorder: re-parent/re-depth the removed items and
insert them one by one at increasing offsets. -/
def insert_removed (new_order : List BranchState)
    (removed_items : List BranchState) (dragged_ids : List Nat)
    (new_parent_id : Option Nat) (new_base_depth : Nat) (depth_change : Int)
    (insertion_idx : Nat) : Option (List BranchState) :=
  insert_items new_order insertion_idx
    (reassign_removed removed_items dragged_ids new_parent_id new_base_depth
      depth_change)

/-- `DragOverlay::reorder_branches` (tree.rs:2078-2205), the pure order
transformation: partitions the current order into kept and removed via the
dragged closure, computes the new parent/depth and insertion index, and
splices the removed items back in.  `none` models the source's
out-of-bounds `Vec::insert` panic. -/
def reorder_branches (current_order : List BranchState)
    (dragged_ids : List Nat) (target_id : Nat)
    (drop_position : DropPosition) : Option (List BranchState) :=
  let to_move := items_to_move dragged_ids current_order
  let target_state := (state_map_get current_order target_id).getD
    ⟨target_id, none, 0⟩
  let new_order := current_order.filter (fun bs => ! to_move.contains bs.id)
  let removed_items := current_order.filter (fun bs => to_move.contains bs.id)
  let pd := new_parent_base_depth new_order target_id target_state
    drop_position
  let insertion_idx := insertion_index new_order target_id drop_position
  let old_depth := ((removed_items.find?
    (fun bs => dragged_ids.contains bs.id)).map (fun bs => bs.depth)).getD 0
  let depth_change : Int := (pd.2 : Int) - (old_depth : Int)
  insert_removed new_order removed_items dragged_ids pd.1 pd.2 depth_change
    insertion_idx

/-- The kept partition of the reorder (the `new_order` accumulator before
insertion): entries whose id is outside the dragged closure. -/
def kept_of (current_order : List BranchState) (dragged_ids : List Nat) :
    List BranchState :=
  current_order.filter
    (fun bs => ! (items_to_move dragged_ids current_order).contains bs.id)

/-- The removed partition of the reorder: entries inside the dragged
closure, in their original relative order. -/
def removed_of (current_order : List BranchState) (dragged_ids : List Nat) :
    List BranchState :=
  current_order.filter
    (fun bs => (items_to_move dragged_ids current_order).contains bs.id)

/-- The target's effective entry (`state_map.get(&target_id)` with the
source's `unwrap_or` default). -/
def target_state_of (current_order : List BranchState) (target_id : Nat) :
    BranchState :=
  (state_map_get current_order target_id).getD ⟨target_id, none, 0⟩

/-- The `old_depth` of the reorder: depth of the first removed entry that
is a directly dragged id (0 when none is). -/
def old_depth_of (current_order : List BranchState) (dragged_ids : List Nat) :
    Nat :=
  (((removed_of current_order dragged_ids).find?
    (fun bs => dragged_ids.contains bs.id)).map (fun bs => bs.depth)).getD 0

/-! ## Visibility (`TreeHandle::is_branch_visible`, `get_branch_info`) -/

/-- `TreeHandle::get_branch_info` (tree.rs:365-375): effective
`(id, parent, depth)` of the branch at `index` — the persisted order entry
when present, the declared topology otherwise. -/
def get_branch_info (branches : List Branch_)
    (branch_order : Option (List BranchState)) (index : Nat) :
    Nat × Option Nat × Nat :=
  let branch := branches.getD index default
  match branch_order with
  | some order =>
    match order.find? (fun bs => bs.id = branch.id) with
    | some bs => (branch.id, bs.parent_id, bs.depth)
    | none => (branch.id, branch.parent_id, branch.depth)
  | none => (branch.id, branch.parent_id, branch.depth)

/-- The resolved parent of an id: the declared/overridden parent of the
first descriptor carrying that id (how every `position`+`get_branch_info`
pair in the source resolves a parent link). -/
def resolved_parent (branches : List Branch_)
    (branch_order : Option (List BranchState)) (x : Nat) : Option Nat :=
  (branches.find? (fun b => b.id = x)).bind (fun b =>
    match branch_order with
    | some order =>
      match order.find? (fun bs => bs.id = b.id) with
      | some bs => bs.parent_id
      | none => b.parent_id
    | none => b.parent_id)

/-- The ancestor loop inside `is_branch_visible` (tree.rs:398-409): walk
resolved parents while each link has a descriptor, reporting whether a
dragged id is met.  Fuel bounds the source's unbounded `while let`. -/
def dragged_ancestor_walk (branches : List Branch_)
    (branch_order : Option (List BranchState)) (dragged : List Nat) :
    Nat → Nat → Bool
  | 0, _ => false
  | fuel + 1, current_parent =>
    match branches.findIdx? (fun b => b.id = current_parent) with
    | none => false
    | some parent_idx =>
      if dragged.contains current_parent then true
      else
        match (get_branch_info branches branch_order parent_idx).2.1 with
        | some np => dragged_ancestor_walk branches branch_order dragged fuel np
        | none => false

/-- The drag checks of `is_branch_visible` (tree.rs:385-411): the branch
itself dragged, its parent dragged, or a dragged id met on the ancestor
walk. -/
def visible_drag_blocked (branches : List Branch_)
    (branch_order : Option (List BranchState))
    (drag_active : Option DragActive) (info : Nat × Option Nat × Nat) :
    Bool :=
  match drag_active with
  | none => false
  | some drag =>
    drag.dragged_nodes.contains info.1 ||
      (match info.2.1 with
       | none => false
       | some p =>
         drag.dragged_nodes.contains p ||
           dragged_ancestor_walk branches branch_order drag.dragged_nodes
             (branches.length + 1) p)

/-- `TreeHandle::is_branch_visible` (tree.rs:378-427).  The source recurses
into the parent's visibility without a structural bound; fuel makes the
embedding total (`branches.length + 1` suffices on acyclic orders). -/
def is_branch_visible (branches : List Branch_) (expanded : List Nat)
    (drag_active : Option DragActive)
    (branch_order : Option (List BranchState)) : Nat → Nat → Bool
  | 0, _ => false
  | fuel + 1, index =>
    if branches.length ≤ index then false
    else
      let info := get_branch_info branches branch_order index
      if visible_drag_blocked branches branch_order drag_active info then
        false
      else
        match info.2.1 with
        | none => true
        | some p =>
          match branches.findIdx? (fun b => b.id = p) with
          | some parent_index =>
            is_branch_visible branches expanded drag_active branch_order
              fuel parent_index && expanded.contains p
          | none => false

/-- Visibility of an *id* (as the claim's "that parent is not both visible
and expanded" reads): the visibility of the first descriptor carrying the
id, false when no descriptor does. -/
def id_visible (branches : List Branch_) (expanded : List Nat)
    (drag_active : Option DragActive)
    (branch_order : Option (List BranchState)) (p : Nat) : Bool :=
  match branches.findIdx? (fun b => b.id = p) with
  | some pidx =>
    is_branch_visible branches expanded drag_active branch_order
      (branches.length + 1) pidx
  | none => false

/-- The dragged id set of the (possibly absent) active drag. -/
def dragged_of (drag_active : Option DragActive) : List Nat :=
  match drag_active with
  | some drag => drag.dragged_nodes
  | none => []

/-- The stored depth of an id's first entry (0 when absent); a convenient
strictly-decreasing measure for discharging forest hypotheses on concrete
orders. -/
def depth_measure (states : List BranchState) (x : Nat) : Nat :=
  ((states.find? (fun bs => bs.id = x)).map (fun bs => bs.depth)).getD 0

/-- Decidable sufficient condition for `IsForestF (parentOf states)`:
every entry's parent sits at strictly smaller stored depth. -/
def depth_decreasing (states : List BranchState) : Bool :=
  states.all (fun e =>
    match e.parent_id with
    | none => true
    | some p => decide (depth_measure states p < depth_measure states e.id))

/-! ## `TreeHandle::update_has_children` (tree.rs:458-516) -/

/-- Recomputes every descriptor's `has_children` from the current resolved
order (declared topology when no persisted order exists) and returns the
ids that newly acquired children, in descriptor order. -/
def update_has_children (branches : List Branch_)
    (branch_order : Option (List BranchState)) : List Branch_ × List Nat :=
  let previous_state := branches.map (fun b => (b.id, b.has_children))
  let parent_ids : List Nat :=
    match branch_order with
    | some order => order.filterMap (fun bs => bs.parent_id)
    | none => branches.filterMap (fun b => b.parent_id)
  let updated := branches.map (fun b =>
    { b with has_children := parent_ids.contains b.id })
  let newly := (branches.filter (fun b =>
    parent_ids.contains b.id &&
      (((previous_state.find? (fun p => p.1 = b.id)).map
        (fun p => ! p.2)).getD false))).map (fun b => b.id)
  (updated, newly)

/-- The auto-expand step of `TreeHandle::layout` (tree.rs:608-614): every
id that newly acquired children is inserted into `expanded`. -/
def layout_auto_expand (expanded : List Nat) (newly : List Nat) : List Nat :=
  newly.foldl (fun acc id => if acc.contains id then acc else acc ++ [id])
    expanded

/-! ## Flattening (`TreeHandle::new`, tree.rs:160-232) -/

/-- A caller-declared nested branch (`struct Branch`), with content of an
opaque type `α` in place of the widget `Element`. -/
inductive NestedBranch (α : Type) : Type
  | mk (content : α) (children : List (NestedBranch α)) (external_id : Nat)
      (accepts_drops : Bool) (draggable : Bool)

mutual

/-- `flatten_branch` (tree.rs:173-219): emit the descriptor for this node
at id `next_id`, then flatten the children depth-first with parent
`next_id` and depth `depth + 1`.  Returns the descriptor and content
arrays plus the next free id. -/
def flatten_branch {α : Type} :
    NestedBranch α → Option Nat → Nat → Nat → List Branch_ × List α × Nat
  | NestedBranch.mk content children ext ad dr, parent_id, depth, next_id =>
    let rest := flatten_children children (some next_id) (depth + 1)
      (next_id + 1)
    (⟨next_id, ext, parent_id, depth, ! children.isEmpty, ad, dr⟩ :: rest.1,
      content :: rest.2.1, rest.2.2)

/-- The `for child in branch.children` / `for root in roots` loops of
`TreeHandle::new`: flatten a sibling list left to right, threading the id
counter. -/
def flatten_children {α : Type} :
    List (NestedBranch α) → Option Nat → Nat → Nat →
      List Branch_ × List α × Nat
  | [], _, _, next_id => ([], [], next_id)
  | b :: bs, parent_id, depth, next_id =>
    let r1 := flatten_branch b parent_id depth next_id
    let r2 := flatten_children bs parent_id depth r1.2.2
    (r1.1 ++ r2.1, r1.2.1 ++ r2.2.1, r2.2.2)
end

/-- `TreeHandle::new`: flatten the declared roots starting from id 0 at
depth 0 with no parent. -/
def tree_handle_new {α : Type} (roots : List (NestedBranch α)) :
    List Branch_ × List α × Nat :=
  flatten_children roots none 0 0

mutual

/-- Specification-side pre-order content traversal (for the refinement
statement of the flatten order): a node's content, then its children's
traversals, then its later siblings'. -/
def preorder_contents {α : Type} : NestedBranch α → List α
  | NestedBranch.mk content children _ _ _ =>
    content :: preorder_contents_list children

/-- Pre-order traversal of a sibling list. -/
def preorder_contents_list {α : Type} : List (NestedBranch α) → List α
  | [] => []
  | b :: bs => preorder_contents b ++ preorder_contents_list bs
end

/-! ## Interaction (`TreeHandle::update`, tree.rs:932-1089) -/

/-- `filter_redundant_selections`'s ancestor walk (tree.rs:2244-2264):
does some ancestor of `current_id` (via the resolved order) belong to the
selection?  Fuel bounds the source's unbounded loop. -/
def has_selected_ancestor (selected_ids : List Nat)
    (branches : List Branch_) (branch_order : Option (List BranchState)) :
    Nat → Nat → Bool
  | 0, _ => false
  | fuel + 1, current_id =>
    match branches.find? (fun b => b.id = current_id) with
    | none => false
    | some branch =>
      let parent_id :=
        match branch_order with
        | some order =>
          (order.find? (fun bs => bs.id = current_id)).bind
            (fun bs => bs.parent_id)
        | none => branch.parent_id
      match parent_id with
      | some parent =>
        if selected_ids.contains parent then true
        else has_selected_ancestor selected_ids branches branch_order fuel
          parent
      | none => false

/-- `filter_redundant_selections` (tree.rs:2238-2272): keep only the
selected ids with no selected ancestor. -/
def filter_redundant_selections (selected_ids : List Nat)
    (branches : List Branch_)
    (branch_order : Option (List BranchState)) : List Nat :=
  selected_ids.filter (fun id =>
    ! has_selected_ancestor selected_ids branches branch_order
      (branches.length + 1) id)

/-- The selection update applied on pointer-down and on Space
(tree.rs:987-996, 1037-1046): ctrl/cmd toggles membership, a plain press
replaces the selection.  `HashSet` insert/remove on the list model. -/
def toggle_or_replace (selected : List Nat) (id : Nat) (mods : Modifiers) :
    List Nat :=
  if mods.control || mods.command then
    if selected.contains id then selected.filter (fun x => x ≠ id)
    else selected ++ [id]
  else [id]

/-- The body run when a left press lands inside a branch row, off the
expand arrow (tree.rs:983-1057).  Row geometry and hit-testing are
resolved by the caller: `branch` is the row that contained the pointer.
Non-draggable branches only update selection and focus; draggable ones
additionally arm `drag_pending` with the candidate set computed *before*
the selection update. -/
def press_on_branch (branches : List Branch_) (st : TreeState)
    (branch : Branch_) (position : Pt) (branch_bounds : Rect) : TreeState :=
  if ! branch.draggable then
    { st with
      selected := toggle_or_replace st.selected branch.id
        st.current_modifiers
      focused := some branch.id }
  else
    let selected_for_drag :=
      if st.selected.contains branch.id then
        filter_redundant_selections st.selected branches st.branch_order
      else [branch.id]
    let click_offset : Pt :=
      (position.1 - branch_bounds.x, position.2 - branch_bounds.y)
    { st with
      drag_pending := some
        ⟨position, selected_for_drag, branch.id, branch_bounds, click_offset⟩
      selected := toggle_or_replace st.selected branch.id
        st.current_modifiers
      focused := some branch.id }

/-- Squared pointer distance.  The source computes
`((dx).powi(2) + (dy).powi(2)).sqrt() >= DRAG_THRESHOLD` with
`DRAG_THRESHOLD = 5.0`; both sides being nonnegative, the comparison is
equivalent to `dx² + dy² ≥ 25`, which avoids `sqrt` on `ℚ`. -/
def distance_sq (a b : Pt) : ℚ :=
  (b.1 - a.1) ^ 2 + (b.2 - a.2) ^ 2

/-- The `CursorMoved` arm of `TreeHandle::update` restricted to its
drag-promotion branch (tree.rs:1068-1089): a pending drag becomes active
once the pointer is at least `DRAG_THRESHOLD` from the press position;
hover bookkeeping (the `else` branch) is render-only and omitted. -/
def cursor_moved (st : TreeState) (position : Pt) : TreeState :=
  match st.drag_pending with
  | some pending =>
    if distance_sq pending.start_position position ≥ 25 then
      { st with
        drag_active := some
          ⟨pending.branch_ids, pending.primary_branch_id,
            pending.branch_bounds, pending.click_offset, position, none,
            DropPosition.Before⟩
        drag_pending := none }
    else st
  | none => st

/-- The `ButtonReleased` arm of `TreeHandle::update` (tree.rs:1064-1066):
release always clears a pending (not yet activated) drag. -/
def button_released_pending (st : TreeState) : TreeState :=
  { st with drag_pending := none }

/-- `Event::Keyboard(ModifiersChanged)` (tree.rs:928-930). -/
def set_modifiers (st : TreeState) (mods : Modifiers) : TreeState :=
  { st with current_modifiers := mods }

/-! ## Drop commit (`DragOverlay::update`, `ButtonReleased`,
tree.rs:1850-1896) -/

/-- `struct DropInfo` (tree.rs). -/
structure DropInfo where
  dragged_ids : List Nat
  target_id : Option Nat
  position : DropPosition
  deriving DecidableEq, Repr

/-- `TreeHandle::preferred_id` (tree.rs:518-522): `int_to_ext[internal]`
when the index is in bounds (0 when the branch has no external id — the
source returns the stored 0, not the internal id), the internal id
otherwise. -/
def preferred_id (int_to_ext : List Nat) (internal : Nat) : Nat :=
  ((int_to_ext.get? internal).map (fun e => e)).getD internal

/-- The current order `reorder_branches` starts from: the persisted
`branch_order` when present, the declared topology otherwise
(tree.rs:2085-2097). -/
def order_or_declared (branches : List Branch_)
    (branch_order : Option (List BranchState)) : List BranchState :=
  match branch_order with
  | some o => o
  | none => branches.map (fun b => ⟨b.id, b.parent_id, b.depth⟩)

/-- The overlay's `ButtonReleased` handler (tree.rs:1850-1896): when an
active drag has a drop target, run `reorder_branches` and, if an `on_drop`
handler is installed, emit the externally-translated `DropInfo`; the
active drag is always cleared.  `none` propagates the reorder's
out-of-bounds panic (the `update_has_children` call at the end of
`reorder_branches` recomputes descriptor flags and is modelled separately
by `update_has_children`). -/
def commit_drop (branches : List Branch_) (int_to_ext : List Nat)
    (on_drop_set : Bool) (st : TreeState) :
    Option (TreeState × Option DropInfo) :=
  match st.drag_active with
  | some drag =>
    match drag.drop_target with
    | some target_id =>
      let current := order_or_declared branches st.branch_order
      match reorder_branches current drag.dragged_nodes target_id
          drag.drop_position with
      | none => none
      | some new_order =>
        let fired :=
          if on_drop_set then
            some (DropInfo.mk
              (drag.dragged_nodes.map (preferred_id int_to_ext))
              (some (preferred_id int_to_ext target_id))
              drag.drop_position)
          else none
        some ({ st with branch_order := some new_order, drag_active := none },
          fired)
    | none => some ({ st with drag_active := none }, none)
  | none => some ({ st with drag_active := none }, none)

/-! ## Event wrapper (for reachability statements) -/

/-- The pointer/keyboard events relevant to drag arming, with hit-testing
resolved: `press id` is a left press landing inside the row of the branch
with internal id `id`, off its expand arrow. -/
inductive TreeEvent
  | press (branchId : Nat) (position : Pt) (bounds : Rect)
  | move (position : Pt)
  | release
  | modifiers (mods : Modifiers)

/-- One step of the interaction state machine of `TreeHandle::update`. -/
def tree_step (branches : List Branch_) (st : TreeState) :
    TreeEvent → TreeState
  | TreeEvent.press id position bounds =>
    match branches.find? (fun b => b.id = id) with
    | some branch => press_on_branch branches st branch position bounds
    | none => st
  | TreeEvent.move position => cursor_moved st position
  | TreeEvent.release => button_released_pending st
  | TreeEvent.modifiers mods => set_modifiers st mods

/-- Run a sequence of events from a state. -/
def tree_run (branches : List Branch_) (st : TreeState)
    (events : List TreeEvent) : TreeState :=
  events.foldl (tree_step branches) st

/-- The initial `TreeState` (tree.rs:544-567, with `expanded` prefilled
from the declared `has_children` flags). -/
def initial_state (branches : List Branch_) : TreeState :=
  { expanded := (branches.filter (fun b => b.has_children)).map
      (fun b => b.id)
    selected := []
    focused := none
    drag_pending := none
    drag_active := none
    branch_order := none
    current_modifiers := ⟨false, false⟩ }

/-! ## Companion `TreeNode` (tree/tree_node.rs) -/

/-- `struct TreeNode` with `Id = usize`. -/
inductive TreeNode : Type
  | mk (id : Nat) (children : List TreeNode) (accepts_drops : Bool)
      (draggable : Bool) (expanded : Bool)

def TreeNode.id : TreeNode → Nat
  | TreeNode.mk i _ _ _ _ => i

def TreeNode.children : TreeNode → List TreeNode
  | TreeNode.mk _ cs _ _ _ => cs

mutual

/-- `TreeNode::remove_node`: first look for a direct child with the id and
extract it; otherwise recurse into the children in order, replacing the
first child whose subtree yielded the node.  Returns the updated tree and
the removed subtree. -/
def remove_node : TreeNode → Nat → Option (TreeNode × TreeNode)
  | TreeNode.mk i cs ad dr ex, id =>
    match remove_direct cs id with
    | some (cs', removed) => some (TreeNode.mk i cs' ad dr ex, removed)
    | none =>
      match remove_in_children cs id with
      | some (cs', removed) => some (TreeNode.mk i cs' ad dr ex, removed)
      | none => none

/-- The `self.children.iter().position(|n| n.id == id)` + `remove` step of
`remove_node`. -/
def remove_direct : List TreeNode → Nat → Option (List TreeNode × TreeNode)
  | [], _ => none
  | c :: rest, id =>
    if c.id = id then some (rest, c)
    else (remove_direct rest id).map (fun r => (c :: r.1, r.2))

/-- The `for child in &mut self.children` recursion of `remove_node`. -/
def remove_in_children :
    List TreeNode → Nat → Option (List TreeNode × TreeNode)
  | [], _ => none
  | c :: rest, id =>
    match remove_node c id with
    | some (c', removed) => some (c' :: rest, removed)
    | none => (remove_in_children rest id).map (fun r => (c :: r.1, r.2))
end

mutual

/-- `TreeNode::add_child_to`: push `child` onto the first node whose id is
`parent_id`; `none` when no such node exists (the source returns `false`
and drops the child). -/
def add_child_to : TreeNode → Nat → TreeNode → Option TreeNode
  | TreeNode.mk i cs ad dr ex, parent_id, child =>
    if i = parent_id then some (TreeNode.mk i (cs ++ [child]) ad dr ex)
    else
      (add_child_to_list cs parent_id child).map
        (fun cs' => TreeNode.mk i cs' ad dr ex)

/-- The child loop of `add_child_to`. -/
def add_child_to_list :
    List TreeNode → Nat → TreeNode → Option (List TreeNode)
  | [], _, _ => none
  | c :: rest, parent_id, child =>
    match add_child_to c parent_id child with
    | some c' => some (c' :: rest)
    | none =>
      (add_child_to_list rest parent_id child).map (fun rest' => c :: rest')
end

/-- `TreeNode::move_node` (tree_node.rs:118-125): remove the node, then
try to attach it under the new parent *in the already-mutated tree*; on
attach failure the removed subtree is dropped and `false` returned. -/
def move_node (t : TreeNode) (node_id new_parent_id : Nat) :
    TreeNode × Bool :=
  match remove_node t node_id with
  | some (t', removed) =>
    match add_child_to t' new_parent_id removed with
    | some t'' => (t'', true)
    | none => (t', false)
  | none => (t, false)

mutual

/-- `TreeNode::collect_ids`: depth-first id collection. -/
def collect_ids : TreeNode → List Nat
  | TreeNode.mk i cs _ _ _ => i :: collect_ids_list cs

/-- `collect_ids` over a child list. -/
def collect_ids_list : List TreeNode → List Nat
  | [] => []
  | c :: rest => collect_ids c ++ collect_ids_list rest
end

/-- Decidable sufficient condition for `IsForestF (resolved_parent …)`:
every descriptor's resolved parent has a strictly smaller id.  Used to
discharge forest hypotheses on concrete descriptor lists. -/
def resolved_forest_check (branches : List Branch_)
    (branch_order : Option (List BranchState)) : Bool :=
  branches.all (fun b =>
    match resolved_parent branches branch_order b.id with
    | none => true
    | some p => decide (p < b.id))

/-- The spec's visibility example: descriptor A (id 0, root), B (id 1,
child of A), C (id 2, child of B), as `flatten` would emit them. -/
def c8_branches : List Branch_ :=
  [⟨0, 10, none, 0, true, false, true⟩,
   ⟨1, 11, some 0, 1, true, false, true⟩,
   ⟨2, 12, some 1, 2, false, false, true⟩]

/-! ## Theorems -/

/-! ### Parent-link machinery lemmas -/

theorem ancF_inv {f : Nat → Option Nat} {x y : Nat} (h : AncF f x y) :
    ∃ p, f x = some p ∧ (p = y ∨ AncF f p y) := by
  cases h with
  | step h => exact ⟨_, h, Or.inl rfl⟩
  | trans h h' => exact ⟨_, h, Or.inr h'⟩

theorem ancF_trans {f : Nat → Option Nat} {x y z : Nat}
    (h : AncF f x y) (h' : AncF f y z) : AncF f x z := by
  induction h with
  | step h => exact AncF.trans h h'
  | trans h _ ih => exact AncF.trans h (ih h')

theorem ancF_of_ancSelf_step {f : Nat → Option Nat} {x y z : Nat}
    (h : f x = some y) (h' : AncSelfF f y z) : AncF f x z := by
  cases h' with
  | inl h' => exact h' ▸ AncF.step h
  | inr h' => exact AncF.trans h h'

theorem ancSelfF_trans {f : Nat → Option Nat} {x y z : Nat}
    (h : AncSelfF f x y) (h' : AncSelfF f y z) : AncSelfF f x z := by
  cases h with
  | inl h => exact h ▸ h'
  | inr h =>
    cases h' with
    | inl h' => exact Or.inr (h' ▸ h)
    | inr h' => exact Or.inr (ancF_trans h h')

/-- Every node on the way to an ancestor has a parent; in particular the
start node does. -/
theorem parent_isSome_of_ancF {f : Nat → Option Nat} {x y : Nat}
    (h : AncF f x y) : ∃ p, f x = some p := by
  rcases ancF_inv h with ⟨p, hp, _⟩
  exact ⟨p, hp⟩

theorem iterPar_add (f : Nat → Option Nat) (a b x : Nat) :
    iterPar f (a + b) x = (iterPar f a x).bind (iterPar f b) := by
  induction a generalizing x with
  | zero => simp [iterPar]
  | succ a ih =>
    have h1 : a + 1 + b = (a + b) + 1 := by omega
    rw [h1]
    cases hfx : f x with
    | none => simp [iterPar, hfx]
    | some p => simpa [iterPar, hfx] using ih p

theorem ancF_of_iterPar {f : Nat → Option Nat} :
    ∀ {k x y : Nat}, iterPar f k x = some y → 1 ≤ k → AncF f x y := by
  intro k
  induction k with
  | zero => omega
  | succ k ih =>
    intro x y h _
    rcases hfx : f x with _ | p
    · simp [iterPar, hfx] at h
    · have h' : iterPar f k p = some y := by simpa [iterPar, hfx] using h
      rcases Nat.eq_zero_or_pos k with hk | hk
      · subst hk
        simp [iterPar] at h'
        exact h' ▸ AncF.step hfx
      · exact AncF.trans hfx (ih h' hk)

theorem iterPar_none_mono {f : Nat → Option Nat} :
    ∀ {k k' x : Nat}, iterPar f k x = none → k ≤ k' → iterPar f k' x = none := by
  intro k
  induction k with
  | zero => intro k' x h _; simp [iterPar] at h
  | succ k ih =>
    intro k' x h hk
    cases k' with
    | zero => omega
    | succ k'' =>
      rcases hfx : f x with _ | p
      · simp [iterPar, hfx]
      · have h' : iterPar f k p = none := by simpa [iterPar, hfx] using h
        have h2 : iterPar f k'' p = none := ih h' (by omega)
        simp [iterPar, hfx, h2]

/-- Pigeonhole: over a support of at most `n` nodes, an acyclic parent walk
ends within `n` steps.  This is the spec's "walk parent links to a
fixed-iteration-count bound and assert termination" rephrased as a theorem:
it justifies the fuel `length + 1` used by the embedded walks. -/
theorem iter_parent_none_of_forest {f : Nat → Option Nat} {s : Finset Nat}
    (hs : ∀ x y, f x = some y → x ∈ s)
    (hforest : IsForestF f) (x : Nat) : iterPar f (s.card + 1) x = none := by
  by_contra h
  rcases Option.ne_none_iff_exists'.1 h with ⟨y, hy⟩
  -- every prefix of the walk is defined
  have hdef : ∀ k, k ≤ s.card + 1 → ∃ z, iterPar f k x = some z := by
    intro k hk
    rcases Nat.exists_eq_add_of_le hk with ⟨m, hm⟩
    rw [hm, iterPar_add] at hy
    rcases hz : iterPar f k x with _ | z
    · rw [hz] at hy; simp at hy
    · exact ⟨z, rfl⟩
  -- the chain function
  have hchain : ∀ k, k ≤ s.card → (iterPar f k x).isSome ∧
      ∀ z, iterPar f k x = some z → z ∈ s := by
    intro k hk
    rcases hdef k (Nat.le_succ_of_le hk) with ⟨z, hz⟩
    refine ⟨by simp [hz], ?_⟩
    intro z' hz'
    rw [hz] at hz'
    cases hz'
    rcases hdef (k + 1) (by omega) with ⟨w, hw⟩
    rw [iterPar_add f k 1] at hw
    rw [hz] at hw
    simp only [Option.some_bind] at hw
    rcases hfz : f z with _ | p
    · simp [iterPar, hfz] at hw
    · exact hs z p hfz
  -- pigeonhole on the first `s.card + 1` chain values
  let c : Nat → Nat := fun k => (iterPar f k x).getD 0
  have hmaps : ∀ k ∈ Finset.range (s.card + 1), c k ∈ s := by
    intro k hk
    simp only [Finset.mem_range] at hk
    have hk' : k ≤ s.card := by omega
    rcases hchain k hk' with ⟨hsome, hmem⟩
    rcases Option.isSome_iff_exists.1 hsome with ⟨z, hz⟩
    have : c k = z := by simp [c, hz]
    rw [this]
    exact hmem z hz
  have hcard : s.card < (Finset.range (s.card + 1)).card := by
    rw [Finset.card_range]
    omega
  have key : ∀ i j : Nat, i < j → j ≤ s.card + 1 → c i = c j → False := by
    intro i j hij hj heq
    rcases hdef i (by omega) with ⟨z, hz⟩
    rcases hdef j (by omega) with ⟨w, hw⟩
    have hcz : c i = z := by simp [c, hz]
    have hcw : c j = w := by simp [c, hw]
    have hzw : z = w := by rw [← hcz, ← hcw, heq]
    subst hzw
    have hstep : iterPar f (i + (j - i)) x = some z := by
      have hji : i + (j - i) = j := by omega
      rw [hji]; exact hw
    rw [iterPar_add, hz] at hstep
    simp only [Option.some_bind] at hstep
    exact hforest z (ancF_of_iterPar hstep (by omega))
  rcases Finset.exists_ne_map_eq_of_card_lt_of_maps_to hcard hmaps with
    ⟨i, hi, j, hj, hne, heq⟩
  simp only [Finset.mem_range] at hi hj
  rcases Nat.lt_or_ge i j with hij | hij
  · exact key i j hij (by omega) heq
  · exact key j i (by omega) (by omega) heq.symm

/-- A strictly decreasing measure along parent links rules out cycles;
used to discharge forest hypotheses on concrete orders (where the stored
depth is such a measure). -/
theorem isForestF_of_measure {f : Nat → Option Nat} (μ : Nat → Nat)
    (h : ∀ x p, f x = some p → μ p < μ x) : IsForestF f := by
  have key : ∀ x y, AncF f x y → μ y < μ x := by
    intro x y hxy
    induction hxy with
    | step hstep => exact h _ _ hstep
    | trans hstep _ ih => exact lt_trans ih (h _ _ hstep)
  intro x hx
  exact absurd (key x x hx) (lt_irrefl _)


/-! ### List and forest infrastructure -/

theorem contains_iff {l : List Nat} {a : Nat} :
    l.contains a = true ↔ a ∈ l := by
  simp [List.contains, List.elem_iff]

/-- `depth_decreasing` is a sound forest check: the stored depth strictly
decreases along parent links, so no cycle can close. -/
theorem isForestF_of_depth_decreasing {states : List BranchState}
    (h : depth_decreasing states = true) : IsForestF (parentOf states) := by
  apply isForestF_of_measure (depth_measure states)
  intro x p hx
  unfold parentOf at hx
  rcases hfind : states.find? (fun bs => bs.id = x) with _ | e
  · rw [hfind] at hx; simp at hx
  · rw [hfind] at hx
    simp only [Option.some_bind] at hx
    have hmem : e ∈ states := List.mem_of_find?_eq_some hfind
    have hid : e.id = x := by
      have := List.find?_some hfind
      simpa using this
    have hall := (List.all_eq_true.1 h) e hmem
    rw [hx] at hall
    simp only [decide_eq_true_eq] at hall
    have hμ : depth_measure states x = e.depth := by
      unfold depth_measure
      rw [hfind]
      rfl
    rw [hid] at hall
    omega

/-- With one entry per id, `find?` locates exactly a given member entry. -/
theorem find?_of_mem_nodup {states : List BranchState} {e : BranchState}
    (hnodup : (states.map (fun bs => bs.id)).Nodup)
    (hmem : e ∈ states) :
    states.find? (fun bs => bs.id = e.id) = some e := by
  induction states with
  | nil => cases hmem
  | cons a rest ih =>
    simp only [List.map_cons, List.nodup_cons] at hnodup
    rcases List.mem_cons.1 hmem with rfl | hmem'
    · exact List.find?_cons_of_pos rest (by simp)
    · have hne : a.id ≠ e.id := by
        intro hcontra
        exact hnodup.1 (hcontra ▸ List.mem_map_of_mem (fun bs => bs.id) hmem')
      rw [List.find?_cons_of_neg rest (by simp [hne])]
      exact ih hnodup.2 hmem'

/-! ### Claim C4 — Into drop with auto-expand -/

/-- **C4**: from order `[A, B]` (ids 0, 1, both depth 0, A childless),
committing a drag of B onto A with position `Into` yields an order where
B's resolved parent is A at depth 1; recomputing `has_children` on the
fresh descriptors then marks A as having children, reports A as newly
parented, and the layout pass auto-inserts A into the (previously empty)
expanded set with no further user interaction. -/
theorem c4_into_auto_expand :
    reorder_branches [⟨0, none, 0⟩, ⟨1, none, 0⟩] [1] 0 DropPosition.Into =
      some [⟨0, none, 0⟩, ⟨1, some 0, 1⟩] ∧
    (update_has_children
        [⟨0, 10, none, 0, false, false, true⟩,
          ⟨1, 20, none, 0, false, false, true⟩]
        (some [⟨0, none, 0⟩, ⟨1, some 0, 1⟩])).1.map
      (fun b => (b.id, b.has_children)) = [(0, true), (1, false)] ∧
    (update_has_children
        [⟨0, 10, none, 0, false, false, true⟩,
          ⟨1, 20, none, 0, false, false, true⟩]
        (some [⟨0, none, 0⟩, ⟨1, some 0, 1⟩])).2 = [0] ∧
    layout_auto_expand [] [0] = [0] := by
  refine ⟨rfl, rfl, rfl, rfl⟩

/-! ### Claim C9 — drag activation threshold -/

/-- Unfolding of `cursor_moved` on a pending drag. -/
theorem cursor_moved_pending_spec (st : TreeState) (pending : DragPending)
    (pos : Pt) (hp : st.drag_pending = some pending) :
    cursor_moved st pos =
      if 25 ≤ distance_sq pending.start_position pos then
        { st with
          drag_active := some
            ⟨pending.branch_ids, pending.primary_branch_id,
              pending.branch_bounds, pending.click_offset, pos, none,
              DropPosition.Before⟩
          drag_pending := none }
      else st := by
  unfold cursor_moved
  rw [hp]

/-- **C9** (amended): a pointer move promotes a pending drag exactly when
the Euclidean distance from `start_position` is **at least** 5 px
(squared distance at least 25); on promotion the active drag carries the
pending candidate set and `drag_pending` is cleared; below the threshold
the state is unchanged; pointer-up clears `drag_pending` without touching
`drag_active`. -/
theorem c9_drag_threshold (st : TreeState) (pending : DragPending) (pos : Pt)
    (hp : st.drag_pending = some pending) :
    (25 ≤ distance_sq pending.start_position pos →
      cursor_moved st pos =
        { st with
          drag_active := some
            ⟨pending.branch_ids, pending.primary_branch_id,
              pending.branch_bounds, pending.click_offset, pos, none,
              DropPosition.Before⟩
          drag_pending := none }) ∧
    (distance_sq pending.start_position pos < 25 →
      cursor_moved st pos = st) ∧
    (button_released_pending st).drag_pending = none ∧
    (button_released_pending st).drag_active = st.drag_active := by
  rw [cursor_moved_pending_spec st pending pos hp]
  refine ⟨?_, ?_, rfl, rfl⟩
  · intro h
    rw [if_pos h]
  · intro h
    rw [if_neg (not_le.mpr h)]

/-- **C9 counterexample** to the claim as stated: a move of exactly 5 px
(squared distance exactly 25, from `(0,0)` to `(3,4)`, exact in `f32`)
does *not* exceed the 5 px threshold, yet the code promotes the drag
(`distance >= DRAG_THRESHOLD` is non-strict). -/
theorem c9_counterexample :
    distance_sq (0, 0) (3, 4) = 25 ∧
    (cursor_moved
      { expanded := [], selected := [], focused := none,
        drag_pending := some ⟨(0, 0), [1], 1, ⟨0, 0, 10, 1⟩, (0, 0)⟩,
        drag_active := none, branch_order := none,
        current_modifiers := ⟨false, false⟩ } (3, 4)).drag_active.isSome =
      true := by
  constructor
  · norm_num [distance_sq]
  · rw [cursor_moved_pending_spec _ ⟨(0, 0), [1], 1, ⟨0, 0, 10, 1⟩, (0, 0)⟩
      (3, 4) rfl]
    rw [if_pos (by norm_num [distance_sq])]
    rfl

/-- Witness for C9: a 6 px move from `(0,0)` activates the drag with the
pending candidate set. -/
theorem c9_witness :
    25 ≤ distance_sq (0, 0) (6, 0) ∧
    cursor_moved
      { expanded := [], selected := [], focused := none,
        drag_pending := some ⟨(0, 0), [1], 1, ⟨0, 0, 10, 1⟩, (0, 0)⟩,
        drag_active := none, branch_order := none,
        current_modifiers := ⟨false, false⟩ } (6, 0) =
      { expanded := [], selected := [], focused := none,
        drag_pending := none,
        drag_active := some
          ⟨[1], 1, ⟨0, 0, 10, 1⟩, (0, 0), (6, 0), none, DropPosition.Before⟩,
        branch_order := none,
        current_modifiers := ⟨false, false⟩ } := by
  constructor
  · norm_num [distance_sq]
  · exact (c9_drag_threshold
      { expanded := [], selected := [], focused := none,
        drag_pending := some ⟨(0, 0), [1], 1, ⟨0, 0, 10, 1⟩, (0, 0)⟩,
        drag_active := none, branch_order := none,
        current_modifiers := ⟨false, false⟩ }
      ⟨(0, 0), [1], 1, ⟨0, 0, 10, 1⟩, (0, 0)⟩ (6, 0) rfl).1
      (by norm_num [distance_sq])

/-! ### Claim C2 — no defensive no-op on unresolvable target -/

/-- **C2** (divergence from the spec, evaluated at the failing input):
with order `[0, 1]` and a committed drag of `{0}` whose recorded drop
target is the dragged id 0 itself, the engine does *not* no-op: with
`Before` the persisted order changes to `[1, 0]` and the `on_drop`
callback still fires; with `Into` the insertion index exceeds the kept
list's length (an out-of-bounds `Vec::insert` panic in the source,
modelled as `none`). -/
theorem c2_no_defensive_noop :
    (commit_drop
        [⟨0, 0, none, 0, false, false, true⟩,
          ⟨1, 0, none, 0, false, false, true⟩]
        [0, 0] true
        { expanded := [], selected := [], focused := none,
          drag_pending := none,
          drag_active := some
            ⟨[0], 0, ⟨0, 0, 10, 1⟩, (0, 0), (0, 0), some 0,
              DropPosition.Before⟩,
          branch_order := some [⟨0, none, 0⟩, ⟨1, none, 0⟩],
          current_modifiers := ⟨false, false⟩ }).map
      (fun r => (r.1.branch_order, r.2.isSome)) =
      some (some [⟨1, none, 0⟩, ⟨0, none, 0⟩], true) ∧
    (some [(⟨1, none, 0⟩ : BranchState), ⟨0, none, 0⟩] ≠
      some [⟨0, none, 0⟩, ⟨1, none, 0⟩]) ∧
    commit_drop
        [⟨0, 0, none, 0, false, false, true⟩,
          ⟨1, 0, none, 0, false, false, true⟩]
        [0, 0] true
        { expanded := [], selected := [], focused := none,
          drag_pending := none,
          drag_active := some
            ⟨[0], 0, ⟨0, 0, 10, 1⟩, (0, 0), (0, 0), some 0,
              DropPosition.Into⟩,
          branch_order := some [⟨0, none, 0⟩, ⟨1, none, 0⟩],
          current_modifiers := ⟨false, false⟩ } = none := by
  refine ⟨rfl, by decide, rfl⟩

/-! ### Claim C3 — non-draggable ids can enter the drag sets -/

/-- **C3** (divergence from the spec, evaluated at the failing event
sequence): branch 0 is non-draggable, branch 1 draggable, both roots.
Ctrl-click 0, ctrl-click 1, then press 1 again (now selected) and move
6 px: the armed candidate set — and after the move the active drag set —
is `[0, 1]`, containing the non-draggable id 0.  (Selection and focus on
the non-draggable branch behaved normally throughout.) -/
theorem c3_non_draggable_enters_drag :
    ((tree_run
        [⟨0, 0, none, 0, false, false, false⟩,
          ⟨1, 0, none, 0, false, false, true⟩]
        (initial_state
          [⟨0, 0, none, 0, false, false, false⟩,
            ⟨1, 0, none, 0, false, false, true⟩])
        [TreeEvent.modifiers ⟨true, false⟩,
          TreeEvent.press 0 (0, 0) ⟨0, 0, 10, 1⟩,
          TreeEvent.release,
          TreeEvent.press 1 (0, 0) ⟨0, 0, 10, 1⟩,
          TreeEvent.release,
          TreeEvent.modifiers ⟨false, false⟩,
          TreeEvent.press 1 (0, 0) ⟨0, 0, 10, 1⟩]).drag_pending.map
      (fun p => p.branch_ids) = some [0, 1]) ∧
    ((tree_run
        [⟨0, 0, none, 0, false, false, false⟩,
          ⟨1, 0, none, 0, false, false, true⟩]
        (initial_state
          [⟨0, 0, none, 0, false, false, false⟩,
            ⟨1, 0, none, 0, false, false, true⟩])
        [TreeEvent.modifiers ⟨true, false⟩,
          TreeEvent.press 0 (0, 0) ⟨0, 0, 10, 1⟩,
          TreeEvent.release,
          TreeEvent.press 1 (0, 0) ⟨0, 0, 10, 1⟩,
          TreeEvent.release,
          TreeEvent.modifiers ⟨false, false⟩,
          TreeEvent.press 1 (0, 0) ⟨0, 0, 10, 1⟩,
          TreeEvent.move (6, 0)]).drag_active.map
      (fun d => d.dragged_nodes) = some [0, 1]) ∧
    ((([⟨0, 0, none, 0, false, false, false⟩,
        ⟨1, 0, none, 0, false, false, true⟩] :
          List Branch_).find? (fun b => b.id = 0)).map
      (fun b => b.draggable) = some false) := by
  refine ⟨rfl, ?_, rfl⟩
  have step :
      tree_run
        [⟨0, 0, none, 0, false, false, false⟩,
          ⟨1, 0, none, 0, false, false, true⟩]
        (initial_state
          [⟨0, 0, none, 0, false, false, false⟩,
            ⟨1, 0, none, 0, false, false, true⟩])
        [TreeEvent.modifiers ⟨true, false⟩,
          TreeEvent.press 0 (0, 0) ⟨0, 0, 10, 1⟩,
          TreeEvent.release,
          TreeEvent.press 1 (0, 0) ⟨0, 0, 10, 1⟩,
          TreeEvent.release,
          TreeEvent.modifiers ⟨false, false⟩,
          TreeEvent.press 1 (0, 0) ⟨0, 0, 10, 1⟩,
          TreeEvent.move (6, 0)] =
      cursor_moved
        { expanded := [], selected := [1], focused := some 1,
          drag_pending := some
            ⟨(0, 0), [0, 1], 1, ⟨0, 0, 10, 1⟩, ((0 : ℚ) - 0, (0 : ℚ) - 0)⟩,
          drag_active := none, branch_order := none,
          current_modifiers := ⟨false, false⟩ } (6, 0) := rfl
  rw [step,
    cursor_moved_pending_spec _
      ⟨(0, 0), [0, 1], 1, ⟨0, 0, 10, 1⟩, ((0 : ℚ) - 0, (0 : ℚ) - 0)⟩
      (6, 0) rfl,
    if_pos (by norm_num [distance_sq])]
  rfl

/-! ### Claim C10 — `TreeNode::move_node` is not atomic on failure -/

mutual

/-- `add_child_to` fails exactly by returning `none` when the parent id
has no node in the tree. -/
theorem add_child_to_eq_none (t : TreeNode) (pid : Nat) (c : TreeNode)
    (h : pid ∉ collect_ids t) : add_child_to t pid c = none := by
  cases t with
  | mk i cs ad dr ex =>
    rw [collect_ids] at h
    simp only [List.mem_cons, not_or] at h
    rw [add_child_to]
    rw [if_neg (fun hip => h.1 (hip.symm))]
    rw [add_child_to_list_eq_none cs pid c h.2]
    rfl

/-- List version of `add_child_to_eq_none`. -/
theorem add_child_to_list_eq_none (l : List TreeNode) (pid : Nat)
    (c : TreeNode) (h : pid ∉ collect_ids_list l) :
    add_child_to_list l pid c = none := by
  cases l with
  | nil => rfl
  | cons a rest =>
    rw [collect_ids_list] at h
    simp only [List.mem_append, not_or] at h
    rw [add_child_to_list]
    rw [add_child_to_eq_none a pid c h.1]
    rw [add_child_to_list_eq_none rest pid c h.2]
    rfl

end

/-- **C10**: when `remove_node` succeeds but the new parent id is absent
from the remaining tree (in particular when it names a node inside the
moved subtree), `move_node` returns `false` and leaves the tree in its
post-removal state — the removed subtree is discarded, not restored. -/
theorem c10_move_node_not_atomic (t t2 removed : TreeNode)
    (node_id new_parent_id : Nat)
    (hrem : remove_node t node_id = some (t2, removed))
    (habs : new_parent_id ∉ collect_ids t2) :
    move_node t node_id new_parent_id = (t2, false) := by
  unfold move_node
  rw [hrem]
  show (match add_child_to t2 new_parent_id removed with
        | some t2x => (t2x, true)
        | none => (t2, false)) = (t2, false)
  rw [add_child_to_eq_none t2 new_parent_id removed habs]

/-- Witness for C10: moving node 1 of the tree `0[1[2], 3]` under its own
descendant 2 removes the subtree `1[2]`, fails to re-attach it, and leaves
the tree as `0[3]` with `false` — ids 1 and 2 are lost. -/
theorem c10_witness :
    remove_node
        (TreeNode.mk 0
          [TreeNode.mk 1 [TreeNode.mk 2 [] false false false] false false
            false, TreeNode.mk 3 [] false false false] false false false) 1 =
      some
        (TreeNode.mk 0 [TreeNode.mk 3 [] false false false] false false false,
          TreeNode.mk 1 [TreeNode.mk 2 [] false false false] false false
            false) ∧
    (2 : Nat) ∉ collect_ids
      (TreeNode.mk 0 [TreeNode.mk 3 [] false false false] false false false) ∧
    move_node
        (TreeNode.mk 0
          [TreeNode.mk 1 [TreeNode.mk 2 [] false false false] false false
            false, TreeNode.mk 3 [] false false false] false false false) 1
        2 =
      (TreeNode.mk 0 [TreeNode.mk 3 [] false false false] false false false,
        false) ∧
    collect_ids
        (TreeNode.mk 0 [TreeNode.mk 3 [] false false false] false false
          false) ≠
      collect_ids
        (TreeNode.mk 0
          [TreeNode.mk 1 [TreeNode.mk 2 [] false false false] false false
            false, TreeNode.mk 3 [] false false false] false false false) := by
  refine ⟨rfl, by decide, ?_, by decide⟩
  exact c10_move_node_not_atomic _ _ _ 1 2 rfl (by decide)


/-! ### Claim C5 — pre-order flattening -/

mutual

/-- The flatten pass assigns ids consecutively in visitation order,
emits contents in pre-order, and advances the id counter by the subtree
size. -/
theorem flatten_branch_spec {α : Type} (b : NestedBranch α)
    (parent : Option Nat) (depth n : Nat) :
    (flatten_branch b parent depth n).1.map (fun d => d.id) =
      List.range' n (preorder_contents b).length ∧
    (flatten_branch b parent depth n).2.1 = preorder_contents b ∧
    (flatten_branch b parent depth n).2.2 = n + (preorder_contents b).length := by
  cases b with
  | mk content children ext ad dr =>
    have ih := flatten_children_spec children (some n) (depth + 1) (n + 1)
    rw [flatten_branch, preorder_contents]
    refine ⟨?_, ?_, ?_⟩
    · simp only [List.map_cons, ih.1, List.length_cons]
      rfl
    · simp only [ih.2.1]
    · simp only [ih.2.2, List.length_cons]
      omega

/-- Sibling-list version of `flatten_branch_spec`. -/
theorem flatten_children_spec {α : Type} (l : List (NestedBranch α))
    (parent : Option Nat) (depth n : Nat) :
    (flatten_children l parent depth n).1.map (fun d => d.id) =
      List.range' n (preorder_contents_list l).length ∧
    (flatten_children l parent depth n).2.1 = preorder_contents_list l ∧
    (flatten_children l parent depth n).2.2 =
      n + (preorder_contents_list l).length := by
  cases l with
  | nil =>
    rw [flatten_children, preorder_contents_list]
    exact ⟨rfl, rfl, rfl⟩
  | cons b bs =>
    have ih1 := flatten_branch_spec b parent depth n
    have ih2 := flatten_children_spec bs parent depth
      (flatten_branch b parent depth n).2.2
    rw [ih1.2.2] at ih2
    rw [flatten_children, preorder_contents_list, ih1.2.2]
    refine ⟨?_, ?_, ?_⟩
    · simp only [List.map_append, ih1.1, ih2.1, List.length_append]
      rw [List.range'_append_1 n (preorder_contents b).length
        (preorder_contents_list bs).length]
      rw [Nat.add_comm]
    · simp only [ih1.2.1, ih2.2.1]
    · simp only [ih2.2.2, List.length_append]
      omega

end

mutual

/-- Every emitted descriptor either carries the parent/depth the subtree
was entered with, or points at another emitted descriptor one depth
level up. -/
theorem flatten_branch_parent_depth {α : Type} (b : NestedBranch α)
    (parent : Option Nat) (depth n : Nat) :
    ∀ e ∈ (flatten_branch b parent depth n).1,
      (e.parent_id = parent ∧ e.depth = depth) ∨
      ∃ e2 ∈ (flatten_branch b parent depth n).1,
        e.parent_id = some e2.id ∧ e.depth = e2.depth + 1 := by
  cases b with
  | mk content children ext ad dr =>
    intro e he
    rw [flatten_branch] at he ⊢
    simp only [List.mem_cons] at he
    rcases he with rfl | he
    · exact Or.inl ⟨rfl, rfl⟩
    · rcases flatten_children_parent_depth children (some n) (depth + 1)
        (n + 1) e he with ⟨hp, hd⟩ | ⟨e2, he2, hp, hd⟩
      · refine Or.inr ⟨⟨n, ext, parent, depth, ! children.isEmpty, ad, dr⟩,
          List.mem_cons_self _ _, ?_, ?_⟩
        · exact hp
        · exact hd
      · exact Or.inr ⟨e2, List.mem_cons_of_mem _ he2, hp, hd⟩

/-- Sibling-list version of `flatten_branch_parent_depth`. -/
theorem flatten_children_parent_depth {α : Type} (l : List (NestedBranch α))
    (parent : Option Nat) (depth n : Nat) :
    ∀ e ∈ (flatten_children l parent depth n).1,
      (e.parent_id = parent ∧ e.depth = depth) ∨
      ∃ e2 ∈ (flatten_children l parent depth n).1,
        e.parent_id = some e2.id ∧ e.depth = e2.depth + 1 := by
  cases l with
  | nil =>
    intro e he
    rw [flatten_children] at he
    cases he
  | cons b bs =>
    intro e he
    rw [flatten_children] at he ⊢
    simp only [List.mem_append] at he
    rcases he with he | he
    · rcases flatten_branch_parent_depth b parent depth n e he with h | ⟨e2, he2, hp, hd⟩
      · exact Or.inl h
      · exact Or.inr ⟨e2, List.mem_append_left _ he2, hp, hd⟩
    · rcases flatten_children_parent_depth bs parent depth
        (flatten_branch b parent depth n).2.2 e he with h | ⟨e2, he2, hp, hd⟩
      · exact Or.inl h
      · exact Or.inr ⟨e2, List.mem_append_right _ he2, hp, hd⟩

end

/-- **C5**: `TreeHandle::new` flattens the declared roots depth-first in
pre-order: internal ids come out as `0..N-1` in visitation order, the
content array is index-parallel and equals the pre-order traversal, every
descriptor's parent/depth names its actual parent one nesting level up
(roots get no parent at depth 0), and the tree `A[B[C,D],E]` flattens to
ids `0..4` in the order A,B,C,D,E with parents `-, A, B, B, A`. -/
theorem c5_preorder_flatten {α : Type} (roots : List (NestedBranch α)) :
    ((tree_handle_new roots).1.map (fun d => d.id) =
      List.range (preorder_contents_list roots).length) ∧
    ((tree_handle_new roots).2.1 = preorder_contents_list roots) ∧
    ((tree_handle_new roots).1.length = (tree_handle_new roots).2.1.length) ∧
    (∀ e ∈ (tree_handle_new roots).1,
      (e.parent_id = none ∧ e.depth = 0) ∨
      ∃ e2 ∈ (tree_handle_new roots).1,
        e.parent_id = some e2.id ∧ e.depth = e2.depth + 1) ∧
    ((tree_handle_new
        [NestedBranch.mk 10
          [NestedBranch.mk 20
            [NestedBranch.mk 30 ([] : List (NestedBranch Nat)) 0 false true,
              NestedBranch.mk 40 [] 0 false true] 0 false true,
            NestedBranch.mk 50 [] 0 false true] 0 false true]).1.map
      (fun d => (d.id, d.parent_id, d.depth)) =
      [(0, none, 0), (1, some 0, 1), (2, some 1, 2), (3, some 1, 2),
        (4, some 0, 1)]) ∧
    ((tree_handle_new
        [NestedBranch.mk 10
          [NestedBranch.mk 20
            [NestedBranch.mk 30 ([] : List (NestedBranch Nat)) 0 false true,
              NestedBranch.mk 40 [] 0 false true] 0 false true,
            NestedBranch.mk 50 [] 0 false true] 0 false true]).2.1 =
      [10, 20, 30, 40, 50]) := by
  have hspec := flatten_children_spec roots (none : Option Nat) 0 0
  refine ⟨?_, hspec.2.1, ?_, ?_, rfl, rfl⟩
  · rw [List.range_eq_range']
    exact hspec.1
  · have hlen : ((tree_handle_new roots).1.map (fun d => d.id)).length =
        (tree_handle_new roots).1.length := List.length_map _ _
    rw [tree_handle_new] at *
    rw [hspec.2.1]
    rw [← hlen, hspec.1, List.length_range']
  · intro e he
    exact flatten_children_parent_depth roots none 0 0 e he

/-- Witness for C5: in the flattened `A[B[C,D],E]`, descriptor 2 (content
C) is present and points at descriptor 1 (content B) one level up. -/
theorem c5_witness :
    ((⟨2, 0, some 1, 2, false, false, true⟩ : Branch_) ∈
      (tree_handle_new
        [NestedBranch.mk 10
          [NestedBranch.mk 20
            [NestedBranch.mk 30 ([] : List (NestedBranch Nat)) 0 false true,
              NestedBranch.mk 40 [] 0 false true] 0 false true,
            NestedBranch.mk 50 [] 0 false true] 0 false true]).1) ∧
    (((⟨2, 0, some 1, 2, false, false, true⟩ : Branch_).parent_id = none ∧
        (⟨2, 0, some 1, 2, false, false, true⟩ : Branch_).depth = 0) ∨
      ∃ e2 ∈ (tree_handle_new
        [NestedBranch.mk 10
          [NestedBranch.mk 20
            [NestedBranch.mk 30 ([] : List (NestedBranch Nat)) 0 false true,
              NestedBranch.mk 40 [] 0 false true] 0 false true,
            NestedBranch.mk 50 [] 0 false true] 0 false true]).1,
        (⟨2, 0, some 1, 2, false, false, true⟩ : Branch_).parent_id =
          some e2.id ∧
        (⟨2, 0, some 1, 2, false, false, true⟩ : Branch_).depth =
          e2.depth + 1) := by
  refine ⟨by decide, ?_⟩
  exact (c5_preorder_flatten
    [NestedBranch.mk 10
      [NestedBranch.mk 20
        [NestedBranch.mk 30 ([] : List (NestedBranch Nat)) 0 false true,
          NestedBranch.mk 40 [] 0 false true] 0 false true,
        NestedBranch.mk 50 [] 0 false true] 0 false true]).2.2.2.1
    ⟨2, 0, some 1, 2, false, false, true⟩ (by decide)


/-! ### Reorder-engine infrastructure -/

/-- `reorder_branches` written through the named partition helpers. -/
theorem reorder_branches_def (order : List BranchState) (dragged : List Nat)
    (target : Nat) (pos : DropPosition) :
    reorder_branches order dragged target pos =
      insert_items (kept_of order dragged)
        (insertion_index (kept_of order dragged) target pos)
        (reassign_removed (removed_of order dragged) dragged
          (new_parent_base_depth (kept_of order dragged) target
            (target_state_of order target) pos).1
          (new_parent_base_depth (kept_of order dragged) target
            (target_state_of order target) pos).2
          (((new_parent_base_depth (kept_of order dragged) target
              (target_state_of order target) pos).2 : Int) -
            (old_depth_of order dragged : Int))) := by
  simp only [reorder_branches, insert_removed, kept_of, removed_of,
    target_state_of, old_depth_of]
  cases hfind : List.find? (fun bs => dragged.contains bs.id)
      (List.filter (fun bs => (items_to_move dragged order).contains bs.id)
        order) with
  | none => simp [hfind]
  | some e => simp [hfind]

/-- `findIdx?`'s defining properties: a first index satisfying the
predicate. -/
theorem findIdx?_spec {α : Type} {p : α → Bool} {l : List α} {j : Nat}
    (h : l.findIdx? p = some j) :
    ∃ hj : j < l.length, p (l.get ⟨j, hj⟩) = true ∧
      ∀ k (hk : k < j), p (l.get ⟨k, Nat.lt_trans hk hj⟩) = false := by
  obtain ⟨hlt, hfi⟩ := List.findIdx?_eq_some_iff_findIdx_eq.1 h
  refine ⟨hlt, ?_, ?_⟩
  · have := (List.findIdx_eq hlt).1 hfi
    simpa [List.get_eq_getElem] using this.1
  · intro k hk
    have := (List.findIdx_eq hlt).1 hfi
    simpa [List.get_eq_getElem] using this.2 k hk

/-- In-bounds insertion loop = a single splice. -/
theorem insert_items_spec (items : List BranchState) :
    ∀ (acc : List BranchState) (idx : Nat), idx ≤ acc.length →
      insert_items acc idx items =
        some (acc.take idx ++ items ++ acc.drop idx) := by
  induction items with
  | nil =>
    intro acc idx h
    rw [insert_items]
    simp
  | cons a rest ih =>
    intro acc idx h
    rw [insert_items, vec_insert, if_pos h]
    simp only [Option.some_bind]
    rw [ih (acc.take idx ++ a :: acc.drop idx) (idx + 1)
      (by
        simp only [List.length_append, List.length_take, List.length_cons,
          List.length_drop]
        omega)]
    have htake : (acc.take idx ++ a :: acc.drop idx).take (idx + 1) =
        acc.take idx ++ [a] := by
      have h1 : acc.take idx ++ a :: acc.drop idx =
          (acc.take idx ++ [a]) ++ acc.drop idx := by simp
      rw [h1, List.take_left']
      simp only [List.length_append, List.length_take, List.length_cons,
        List.length_nil]
      omega
    have hdrop : (acc.take idx ++ a :: acc.drop idx).drop (idx + 1) =
        acc.drop idx := by
      have h1 : acc.take idx ++ a :: acc.drop idx =
          (acc.take idx ++ [a]) ++ acc.drop idx := by simp
      rw [h1, List.drop_left']
      simp only [List.length_append, List.length_take, List.length_nil,
        List.length_cons]
      omega
    rw [htake, hdrop]
    simp

/-- Out-of-bounds first insertion = the source's `Vec::insert` panic. -/
theorem insert_items_none (a : BranchState) (rest : List BranchState)
    (acc : List BranchState) (idx : Nat) (h : acc.length < idx) :
    insert_items acc idx (a :: rest) = none := by
  rw [insert_items, vec_insert, if_neg (by omega)]
  rfl

/-- Anything in the inserted result came from the accumulator or the
items. -/
theorem insert_items_mem {items : List BranchState} :
    ∀ {acc : List BranchState} {idx : Nat} {res : List BranchState},
      insert_items acc idx items = some res →
      ∀ e ∈ res, e ∈ acc ∨ e ∈ items := by
  induction items with
  | nil =>
    intro acc idx res h e he
    rw [insert_items] at h
    cases h
    exact Or.inl he
  | cons a rest ih =>
    intro acc idx res h e he
    rw [insert_items, vec_insert] at h
    by_cases hle : idx ≤ acc.length
    · rw [if_pos hle] at h
      simp only [Option.some_bind] at h
      rcases ih h e he with hacc | hrest
      · have hsplit : e ∈ acc.take idx ∨ e = a ∨ e ∈ acc.drop idx := by
          simpa using hacc
        rcases hsplit with h1 | rfl | h3
        · exact Or.inl (List.mem_of_mem_take h1)
        · exact Or.inr (List.mem_cons_self _ _)
        · exact Or.inl (List.mem_of_mem_drop h3)
      · exact Or.inr (List.mem_cons_of_mem _ hrest)
    · rw [if_neg hle] at h
      cases h

/-- Re-assignment preserves ids. -/
theorem reassign_removed_map_id (rm : List BranchState) (dragged : List Nat)
    (np : Option Nat) (nbd : Nat) (dc : Int) :
    (reassign_removed rm dragged np nbd dc).map (fun bs => bs.id) =
      rm.map (fun bs => bs.id) := by
  rw [reassign_removed, List.map_map]
  congr 1
  funext bs
  by_cases h : bs.id ∈ dragged
  · simp [h]
  · simp [h]

/-- The accumulator only grows under `collect_branch_and_descendants`. -/
theorem collect_mono :
    ∀ (fuel b : Nat) (acc : List Nat) (order : List BranchState) (x : Nat),
      x ∈ acc → x ∈ collect_branch_and_descendants fuel b acc order := by
  intro fuel
  induction fuel with
  | zero => intro b acc order x hx; exact hx
  | succ fuel ih =>
    intro b acc order x hx
    rw [collect_branch_and_descendants]
    have aux : ∀ (cs : List Nat) (acc0 : List Nat), x ∈ acc0 →
        x ∈ cs.foldl
          (fun acc c => collect_branch_and_descendants fuel c acc order)
          acc0 := by
      intro cs
      induction cs with
      | nil => intro acc0 h0; exact h0
      | cons c cs ihc =>
        intro acc0 h0
        exact ihc _ (ih c acc0 order x h0)
    exact aux _ _ (List.mem_cons_of_mem _ hx)

/-- The collected branch itself lands in the closure (fuel permitting). -/
theorem collect_self (fuel b : Nat) (acc : List Nat)
    (order : List BranchState) :
    b ∈ collect_branch_and_descendants (fuel + 1) b acc order := by
  rw [collect_branch_and_descendants]
  have aux : ∀ (cs : List Nat) (acc0 : List Nat), b ∈ acc0 →
      b ∈ cs.foldl
        (fun acc c => collect_branch_and_descendants fuel c acc order)
        acc0 := by
    intro cs
    induction cs with
    | nil => intro acc0 h0; exact h0
    | cons c cs ihc =>
      intro acc0 h0
      exact ihc _ (collect_mono fuel c acc0 order b h0)
  exact aux _ _ (List.mem_cons_self _ _)

/-- Every directly dragged id is in the dragged closure. -/
theorem dragged_mem_items_to_move {dragged : List Nat}
    {order : List BranchState} {d : Nat} (hd : d ∈ dragged) :
    d ∈ items_to_move dragged order := by
  rw [items_to_move]
  have aux : ∀ (ds : List Nat) (acc : List Nat),
      d ∈ acc ∨ d ∈ ds →
      d ∈ ds.foldl
        (fun acc id =>
          collect_branch_and_descendants (order.length + 1) id acc order)
        acc := by
    intro ds
    induction ds with
    | nil =>
      intro acc h
      rcases h with h | h
      · exact h
      · cases h
    | cons a rest ih =>
      intro acc h
      rcases h with h | h
      · exact ih _ (Or.inl (collect_mono _ _ _ _ _ h))
      · rcases List.mem_cons.1 h with rfl | h2
        · exact ih _ (Or.inl (collect_self _ _ _ _))
        · exact ih _ (Or.inr h2)
  exact aux dragged [] (Or.inr hd)

/-- Entries of the kept partition are outside the dragged closure; in
particular no directly dragged id survives in it. -/
theorem kept_id_not_to_move {order : List BranchState} {dragged : List Nat}
    {e : BranchState} (he : e ∈ kept_of order dragged) :
    e.id ∉ items_to_move dragged order := by
  rw [kept_of] at he
  have hf := List.of_mem_filter he
  intro hmem
  rw [contains_iff.2 hmem] at hf
  simp at hf


/-- Loop invariant of the `After` skip: the result bounds a maximal
contiguous run of descendants of the target. -/
theorem skip_descendants_go_spec (kept : List BranchState) (target : Nat) :
    ∀ (d idx : Nat), kept.length - idx = d → idx ≤ kept.length →
      idx ≤ skip_descendants_go kept target d idx ∧
      skip_descendants_go kept target d idx ≤ kept.length ∧
      (∀ k (hk : k < kept.length), idx ≤ k →
        k < skip_descendants_go kept target d idx →
        is_descendant_of (kept.length + 1) (kept.get ⟨k, hk⟩).id target
          kept = true) ∧
      (∀ h2 : skip_descendants_go kept target d idx < kept.length,
        is_descendant_of (kept.length + 1)
          (kept.get ⟨skip_descendants_go kept target d idx, h2⟩).id target
          kept = false) := by
  intro d
  induction d with
  | zero =>
    intro idx hd hle
    have hidx : idx = kept.length := by omega
    rw [skip_descendants_go]
    refine ⟨le_refl _, by omega, ?_, ?_⟩
    · intro k hk h1 h2
      omega
    · intro h2
      omega
  | succ d ih =>
    intro idx hd hle
    have hidx : idx < kept.length := by omega
    rw [skip_descendants_go, dif_pos hidx]
    by_cases hdesc : is_descendant_of (kept.length + 1)
        (kept.get ⟨idx, hidx⟩).id target kept = true
    · rw [if_pos hdesc]
      have := ih (idx + 1) (by omega) (by omega)
      refine ⟨by omega, this.2.1, ?_, this.2.2.2⟩
      intro k hk h1 h2
      rcases Nat.eq_or_lt_of_le h1 with rfl | h3
      · exact hdesc
      · exact this.2.2.1 k hk (by omega) h2
    · rw [if_neg hdesc]
      refine ⟨le_refl _, by omega, ?_, ?_⟩
      · intro k hk h1 h2
        omega
      · intro h2
        simpa using hdesc

/-- Loop invariant of the `After` skip, at the canonical fuel. -/
theorem skip_descendants_spec (kept : List BranchState) (target : Nat)
    (idx : Nat) (hle : idx ≤ kept.length) :
    idx ≤ skip_descendants kept target idx ∧
    skip_descendants kept target idx ≤ kept.length ∧
    (∀ k (hk : k < kept.length), idx ≤ k →
      k < skip_descendants kept target idx →
      is_descendant_of (kept.length + 1) (kept.get ⟨k, hk⟩).id target
        kept = true) ∧
    (∀ h2 : skip_descendants kept target idx < kept.length,
      is_descendant_of (kept.length + 1)
        (kept.get ⟨skip_descendants kept target idx, h2⟩).id target
        kept = false) :=
  skip_descendants_go_spec kept target (kept.length - idx) idx rfl hle

/-! ### Claim C6 — insertion index per drop position -/

/-- **C6**: with the target present in the kept list at index `j`, the
moved items are spliced into the kept list at index `i`, where `i = j`
for `Before`, `i = j + 1` for `Into`, and for `After` `i` lies past a
contiguous run of descendants of the target starting right after it
(everything strictly between `j` and `i` is a descendant by the
parent-link walk, and the entry at `i`, when any, is not) — so the moved
items land after the target's existing children. -/
theorem c6_insertion_index (order : List BranchState) (dragged : List Nat)
    (target : Nat) (pos : DropPosition) (kept : List BranchState)
    (i j : Nat)
    (hkept : kept = kept_of order dragged)
    (hi : i = insertion_index kept target pos)
    (hj : kept.findIdx? (fun bs => bs.id = target) = some j) :
    (∃ moved, reorder_branches order dragged target pos =
        some (kept.take i ++ moved ++ kept.drop i) ∧
      moved.map (fun bs => bs.id) =
        (removed_of order dragged).map (fun bs => bs.id)) ∧
    (pos = DropPosition.Before → i = j) ∧
    (pos = DropPosition.Into → i = j + 1) ∧
    (pos = DropPosition.After →
      j + 1 ≤ i ∧
      (∀ k (hk : k < kept.length), j < k → k < i →
        is_descendant_of (kept.length + 1) (kept.get ⟨k, hk⟩).id target
          kept = true) ∧
      (∀ h2 : i < kept.length,
        is_descendant_of (kept.length + 1) (kept.get ⟨i, h2⟩).id target
          kept = false)) := by
  obtain ⟨hjlt, hjat, hjbefore⟩ := findIdx?_spec hj
  have hskip := skip_descendants_spec kept target (j + 1) (by omega)
  have hibound : i ≤ kept.length ∧
      (pos = DropPosition.Before → i = j) ∧
      (pos = DropPosition.Into → i = j + 1) ∧
      (pos = DropPosition.After → i = skip_descendants kept target (j + 1)) := by
    cases pos with
    | Before =>
      rw [hi, insertion_index, hj]
      refine ⟨?_, ?_, ?_, ?_⟩
      · simp only [Option.getD_some]
        omega
      · intro _
        simp only [Option.getD_some]
      · intro h; cases h
      · intro h; cases h
    | Into =>
      rw [hi, insertion_index, hj]
      refine ⟨?_, ?_, ?_, ?_⟩
      · simp only [Option.getD_some]
        omega
      · intro h; cases h
      · intro _
        simp only [Option.getD_some]
      · intro h; cases h
    | After =>
      rw [hi, insertion_index, hj]
      simp only [Option.map_some, Option.getD_some]
      refine ⟨hskip.2.1, ?_, ?_, fun _ => rfl⟩
      · intro h; cases h
      · intro h; cases h
  refine ⟨?_, hibound.2.1, hibound.2.2.1, ?_⟩
  · refine ⟨reassign_removed (removed_of order dragged) dragged
      (new_parent_base_depth kept target (target_state_of order target)
        pos).1
      (new_parent_base_depth kept target (target_state_of order target)
        pos).2
      (((new_parent_base_depth kept target (target_state_of order target)
          pos).2 : Int) - (old_depth_of order dragged : Int)), ?_, ?_⟩
    · rw [reorder_branches_def, ← hkept, ← hi]
      exact insert_items_spec _ kept i hibound.1
    · exact reassign_removed_map_id _ _ _ _ _
  · intro hpos
    have hiskip := hibound.2.2.2 hpos
    rw [hiskip]
    refine ⟨hskip.1, ?_, hskip.2.2.2⟩
    intro k hk h1 h2
    exact hskip.2.2.1 k hk (by omega) h2

/-- Witness for C6: order `A[B[C]], D` (ids 0,1,2,3), drag D `After` A:
the insertion index skips B and C (descendants of A), so D is spliced at
index 3, after A's whole subtree. -/
theorem c6_witness :
    ∃ moved, reorder_branches
        [⟨0, none, 0⟩, ⟨1, some 0, 1⟩, ⟨2, some 1, 2⟩, ⟨3, none, 0⟩] [3] 0
        DropPosition.After =
        some (([⟨0, none, 0⟩, ⟨1, some 0, 1⟩, ⟨2, some 1, 2⟩] :
            List BranchState).take 3 ++ moved ++
          ([⟨0, none, 0⟩, ⟨1, some 0, 1⟩, ⟨2, some 1, 2⟩] :
            List BranchState).drop 3) ∧
      moved.map (fun bs => bs.id) =
        (removed_of [⟨0, none, 0⟩, ⟨1, some 0, 1⟩, ⟨2, some 1, 2⟩,
          ⟨3, none, 0⟩] [3]).map (fun bs => bs.id) :=
  (c6_insertion_index
    [⟨0, none, 0⟩, ⟨1, some 0, 1⟩, ⟨2, some 1, 2⟩, ⟨3, none, 0⟩] [3] 0
    DropPosition.After [⟨0, none, 0⟩, ⟨1, some 0, 1⟩, ⟨2, some 1, 2⟩] 3 0
    (by decide) (by decide) (by decide)).1


/-! ### Claim C7 — After-drop pop-to-root -/

/-- Index injectivity of ids under the one-entry-per-id invariant. -/
theorem id_getElem_inj {kept : List BranchState}
    (hnodup : (kept.map (fun bs => bs.id)).Nodup)
    {a b : Nat} (ha : a < kept.length) (hb : b < kept.length)
    (heq : (kept.get ⟨a, ha⟩).id = (kept.get ⟨b, hb⟩).id) : a = b := by
  have ha2 : a < (kept.map (fun bs => bs.id)).length := by simpa using ha
  have hb2 : b < (kept.map (fun bs => bs.id)).length := by simpa using hb
  refine (@List.Nodup.getElem_inj_iff _ _ hnodup a ha2 b hb2).1 ?_
  rw [List.getElem_map, List.getElem_map]
  simpa [List.get_eq_getElem] using heq

/-- `rposition` agrees with the forward search on duplicate-free ids. -/
theorem reverse_findIdx?_of_nodup {kept : List BranchState} {target : Nat}
    {j : Nat} (hnodup : (kept.map (fun bs => bs.id)).Nodup)
    (hj : kept.findIdx? (fun bs => bs.id = target) = some j) :
    kept.reverse.findIdx? (fun bs => bs.id = target) =
      some (kept.length - 1 - j) := by
  obtain ⟨hjlt, hjat, hbef⟩ := findIdx?_spec hj
  rw [List.findIdx?_eq_some_iff_findIdx_eq]
  have hlen : kept.reverse.length = kept.length := List.length_reverse _
  refine ⟨by omega, ?_⟩
  rw [List.findIdx_eq (by omega)]
  constructor
  · rw [List.getElem_reverse]
    have harith : kept.length - 1 - (kept.length - 1 - j) = j := by omega
    simp only [harith]
    simpa [List.get_eq_getElem] using hjat
  · intro k hk
    rw [List.getElem_reverse]
    by_contra hcontra
    simp only [Bool.not_eq_false, decide_eq_true_eq] at hcontra
    have hm : kept.length - 1 - k < kept.length := by omega
    have hone : (kept.get ⟨kept.length - 1 - k, hm⟩).id =
        (kept.get ⟨j, hjlt⟩).id := by
      simp only [List.get_eq_getElem]
      rw [hcontra]
      have := hjat
      simp only [decide_eq_true_eq, List.get_eq_getElem] at this
      rw [this]
    have := id_getElem_inj hnodup hm hjlt hone
    omega

/-- The source's `skip_while(...).skip(1)` equals dropping past the first
occurrence of the target. -/
theorem dropWhile_eq_drop_aux {q : BranchState → Bool} :
    ∀ (l : List BranchState) (j : Nat) (hlt : j < l.length),
      (∀ k (hk : k < j), q (l.get ⟨k, Nat.lt_trans hk hlt⟩) = true) →
      q (l.get ⟨j, hlt⟩) = false →
      l.dropWhile q = l.drop j := by
  intro l
  induction l with
  | nil =>
    intro j hlt
    simp at hlt
  | cons a rest ih =>
    intro j hlt hbef hat
    cases j with
    | zero =>
      rw [List.dropWhile_cons, if_neg (by simp_all)]
      rfl
    | succ j =>
      have ha : q a = true := hbef 0 (Nat.succ_pos j)
      rw [List.dropWhile_cons, if_pos ha]
      rw [ih j (by simpa using hlt) (fun k hk => by
        have := hbef (k + 1) (by omega)
        simpa using this) (by simpa using hat)]
      rfl

/-- **C7**: committing a drag `After` a target that is the last item among
its siblings in the kept list, with no root-level entry after it and a
parent of its own, promotes the dragged roots to top level: the computed
new parent/base depth is `(none, 0)` and every directly dragged entry of
the produced order ends with no parent at depth 0. -/
theorem c7_after_pop_to_root (order : List BranchState) (dragged : List Nat)
    (target : Nat) (kept : List BranchState) (ts : BranchState) (j : Nat)
    (hkept : kept = kept_of order dragged)
    (hts : ts = target_state_of order target)
    (hnodup : (kept.map (fun bs => bs.id)).Nodup)
    (hj : kept.findIdx? (fun bs => bs.id = target) = some j)
    (hsib : ∀ e ∈ kept.drop (j + 1), e.parent_id ≠ ts.parent_id)
    (hroot : ∀ e ∈ kept.drop (j + 1), e.parent_id ≠ none)
    (hpar : ts.parent_id.isSome = true) :
    new_parent_base_depth kept target ts DropPosition.After = (none, 0) ∧
    (∀ res, reorder_branches order dragged target DropPosition.After =
        some res →
      ∀ e ∈ res, e.id ∈ dragged → e.parent_id = none ∧ e.depth = 0) ∧
    reorder_branches [⟨0, none, 0⟩, ⟨1, some 0, 1⟩, ⟨2, none, 0⟩,
        ⟨3, none, 0⟩] [3] 1 DropPosition.After =
      some [⟨0, none, 0⟩, ⟨1, some 0, 1⟩, ⟨3, some 0, 1⟩, ⟨2, none, 0⟩] := by
  obtain ⟨hjlt, hjat, hbef⟩ := findIdx?_spec hj
  have hpd : new_parent_base_depth kept target ts DropPosition.After =
      (none, 0) := by
    rw [new_parent_base_depth]
    rw [reverse_findIdx?_of_nodup hnodup hj]
    simp only [Option.map_some']
    have harith : kept.length - 1 - (kept.length - 1 - j) = j := by omega
    rw [harith]
    have hany : (kept.drop (j + 1)).any
        (fun bs => bs.parent_id = ts.parent_id) = false := by
      rw [List.any_eq_false]
      intro e he
      simp only [decide_eq_true_eq]
      exact hsib e he
    have hlast : (decide (j = kept.length - 1) ||
        ! (kept.drop (j + 1)).any
          (fun bs => bs.parent_id = ts.parent_id)) = true := by
      rw [hany]
      simp
    rw [hlast]
    simp only [hpar, Bool.and_true, if_pos rfl]
    have hdw : kept.dropWhile (fun bs => bs.id ≠ target) = kept.drop j := by
      apply dropWhile_eq_drop_aux kept j hjlt
      · intro k hk
        have := hbef k hk
        simp only [decide_eq_true_eq] at this ⊢
        simpa using this
      · have h2 := hjat
        simp only [decide_eq_true_eq, List.get_eq_getElem] at h2
        simp [List.get_eq_getElem, h2]
    rw [hdw, List.drop_drop]
    have hany2 : (kept.drop (j + 1)).any
        (fun bs => bs.parent_id = none) = false := by
      rw [List.any_eq_false]
      intro e he
      simp only [decide_eq_true_eq]
      exact hroot e he
    rw [hany2]
    simp
  refine ⟨hpd, ?_, rfl⟩
  intro res hres e he hed
  rw [reorder_branches_def, ← hkept, ← hts, hpd] at hres
  rcases insert_items_mem hres e he with hk | hm
  · exfalso
    rw [hkept] at hk
    exact kept_id_not_to_move hk (dragged_mem_items_to_move hed)
  · rw [reassign_removed] at hm
    rcases List.mem_map.1 hm with ⟨bs, _, rfl⟩
    have hbsid : bs.id ∈ dragged := by
      by_cases hc : bs.id ∈ dragged
      · exact hc
      · rw [if_neg (fun h => hc (contains_iff.1 h))] at hed
        exact absurd hed hc
    rw [if_pos (contains_iff.2 hbsid)]
    exact ⟨rfl, rfl⟩

/-- Witness for C7: `A[B]` then root `C` then root `D` is not needed —
with order `A[B], D` (ids 0,1,3; B the sole child of A, nothing after it
at root level in the kept list), dragging root item D `After` B promotes
D to root level: the produced order keeps D at depth 0 with no parent. -/
theorem c7_witness :
    (new_parent_base_depth [⟨0, none, 0⟩, ⟨1, some 0, 1⟩] 1
      (target_state_of [⟨0, none, 0⟩, ⟨1, some 0, 1⟩, ⟨3, none, 0⟩] 1)
      DropPosition.After = (none, 0)) ∧
    ∀ res, reorder_branches [⟨0, none, 0⟩, ⟨1, some 0, 1⟩, ⟨3, none, 0⟩]
        [3] 1 DropPosition.After = some res →
      ∀ e ∈ res, e.id ∈ [3] → e.parent_id = none ∧ e.depth = 0 := by
  have h := c7_after_pop_to_root
    [⟨0, none, 0⟩, ⟨1, some 0, 1⟩, ⟨3, none, 0⟩] [3] 1
    [⟨0, none, 0⟩, ⟨1, some 0, 1⟩]
    (target_state_of [⟨0, none, 0⟩, ⟨1, some 0, 1⟩, ⟨3, none, 0⟩] 1) 1
    (by decide) rfl (by decide) (by decide) (by decide) (by decide)
    (by decide)
  exact ⟨h.1, h.2.1⟩


/-! ### Claim C1 — infrastructure -/

/-- Append one parent step at the top of an ancestor chain. -/
theorem ancF_snoc {f : Nat → Option Nat} {x y z : Nat}
    (h : AncF f x y) (hz : f y = some z) : AncF f x z := by
  induction h with
  | step h => exact AncF.trans h (AncF.step hz)
  | trans h _ ih => exact AncF.trans h (ih hz)

/-- With one entry per id, `parentOf` reads off any member entry. -/
theorem parentOf_eq_of_mem {order : List BranchState} {e : BranchState}
    (hnodup : (order.map (fun bs => bs.id)).Nodup) (he : e ∈ order) :
    parentOf order e.id = e.parent_id := by
  rw [parentOf, find?_of_mem_nodup hnodup he]
  rfl

/-- With one entry per id, two member entries sharing an id coincide. -/
theorem mem_id_unique {order : List BranchState} {e e2 : BranchState}
    (hnodup : (order.map (fun bs => bs.id)).Nodup) (he : e ∈ order)
    (he2 : e2 ∈ order) (hid : e.id = e2.id) : e = e2 := by
  have h1 := find?_of_mem_nodup hnodup he
  have h2 := find?_of_mem_nodup hnodup he2
  rw [← hid] at h2
  rw [h1] at h2
  exact Option.some_inj.1 h2

/-- `find?` by id commutes with an id-preserving map. -/
theorem find?_map_id_pres {l : List BranchState} {x : Nat}
    {f : BranchState → BranchState} (hf : ∀ a, (f a).id = a.id) :
    (l.map f).find? (fun bs => bs.id = x) =
      (l.find? (fun bs => bs.id = x)).map f := by
  induction l with
  | nil => rfl
  | cons a rest ih =>
    by_cases ha : a.id = x
    · rw [List.map_cons, List.find?_cons_of_pos _ (by simp [hf, ha]),
        List.find?_cons_of_pos _ (by simp [ha])]
      rfl
    · rw [List.map_cons, List.find?_cons_of_neg _ (by simp [hf, ha]),
        List.find?_cons_of_neg _ (by simp [ha]), ih]

/-- The target's effective entry has exactly the target's resolved parent
(also when the target has no entry: both sides are `none`). -/
theorem ts_parent_eq {order : List BranchState} {t : Nat}
    (hnodup : (order.map (fun bs => bs.id)).Nodup) :
    (target_state_of order t).parent_id = parentOf order t := by
  rw [target_state_of, state_map_get, parentOf]
  cases hfind : order.find? (fun bs => bs.id = t) with
  | none =>
    have hnone : order.reverse.find? (fun bs => bs.id = t) = none := by
      rw [List.find?_eq_none]
      intro e he
      exact (List.find?_eq_none.1 hfind) e (List.mem_reverse.1 he)
    rw [hnone]
    rfl
  | some e =>
    have he : e ∈ order := List.mem_of_find?_eq_some hfind
    have hid : e.id = t := by
      have := List.find?_some hfind
      simpa using this
    have hrev : order.reverse.find? (fun bs => bs.id = t) = some e := by
      have hnodup2 : (order.reverse.map (fun bs => bs.id)).Nodup := by
        rw [List.map_reverse]
        exact List.nodup_reverse.2 hnodup
      have := find?_of_mem_nodup hnodup2 (List.mem_reverse.2 he)
      rw [hid] at this
      exact this
    rw [hrev]
    rfl

/-- Any successful insertion is the splice at the insertion index. -/
theorem insert_items_eq_splice {items : List BranchState} :
    ∀ {acc : List BranchState} {idx : Nat} {res : List BranchState},
      insert_items acc idx items = some res →
      res = acc.take idx ++ items ++ acc.drop idx := by
  induction items with
  | nil =>
    intro acc idx res h
    rw [insert_items] at h
    cases h
    rw [List.append_nil, List.take_append_drop]
  | cons a rest ih =>
    intro acc idx res h
    rw [insert_items, vec_insert] at h
    by_cases hle : idx ≤ acc.length
    · rw [if_pos hle] at h
      simp only [Option.some_bind] at h
      have hres := ih h
      have htake : (acc.take idx ++ a :: acc.drop idx).take (idx + 1) =
          acc.take idx ++ [a] := by
        have h1 : acc.take idx ++ a :: acc.drop idx =
            (acc.take idx ++ [a]) ++ acc.drop idx := by simp
        rw [h1, List.take_left']
        simp only [List.length_append, List.length_take, List.length_cons,
          List.length_nil]
        omega
      have hdrop : (acc.take idx ++ a :: acc.drop idx).drop (idx + 1) =
          acc.drop idx := by
        have h1 : acc.take idx ++ a :: acc.drop idx =
            (acc.take idx ++ [a]) ++ acc.drop idx := by simp
        rw [h1, List.drop_left']
        simp only [List.length_append, List.length_take, List.length_cons,
          List.length_nil]
        omega
      rw [hres, htake, hdrop]
      simp
    · rw [if_neg hle] at h
      cases h

/-- With the target present in the kept list, every drop position's
insertion index is in bounds. -/
theorem insertion_index_le {kept : List BranchState} {target : Nat}
    {j : Nat} (pos : DropPosition)
    (hj : kept.findIdx? (fun bs => bs.id = target) = some j) :
    insertion_index kept target pos ≤ kept.length := by
  obtain ⟨hjlt, _, _⟩ := findIdx?_spec hj
  cases pos with
  | Before =>
    rw [insertion_index, hj]
    simp only [Option.getD_some]
    omega
  | Into =>
    rw [insertion_index, hj]
    simp only [Option.getD_some]
    omega
  | After =>
    rw [insertion_index, hj]
    simp only [Option.map_some', Option.getD_some]
    exact (skip_descendants_spec kept target (j + 1) (by omega)).2.1


/-- Soundness of the closure collection: everything collected is the
branch itself or one of its descendants (by the resolved parent walk). -/
theorem collect_sound {order : List BranchState}
    (hnodup : (order.map (fun bs => bs.id)).Nodup) :
    ∀ (fuel b : Nat) (acc : List Nat) (x : Nat),
      x ∈ collect_branch_and_descendants fuel b acc order →
      x ∈ acc ∨ AncSelfF (parentOf order) x b := by
  intro fuel
  induction fuel with
  | zero =>
    intro b acc x hx
    exact Or.inl hx
  | succ fuel ih =>
    intro b acc x hx
    rw [collect_branch_and_descendants] at hx
    have hchild : ∀ c ∈ (order.filter
        (fun bs => bs.parent_id = some b)).map (fun bs => bs.id),
        parentOf order c = some b := by
      intro c hc
      rcases List.mem_map.1 hc with ⟨bs, hbs, rfl⟩
      have hmem : bs ∈ order := List.mem_of_mem_filter hbs
      have hpar : bs.parent_id = some b := by
        have := List.of_mem_filter hbs
        simpa using this
      rw [parentOf_eq_of_mem hnodup hmem, hpar]
    have aux : ∀ (cs : List Nat), (∀ c ∈ cs, parentOf order c = some b) →
        ∀ (acc0 : List Nat), (∀ y ∈ acc0, y ∈ acc ∨
          AncSelfF (parentOf order) y b) →
        x ∈ cs.foldl
          (fun a c => collect_branch_and_descendants fuel c a order) acc0 →
        x ∈ acc ∨ AncSelfF (parentOf order) x b := by
      intro cs
      induction cs with
      | nil =>
        intro _ acc0 hacc0 hx0
        exact hacc0 x hx0
      | cons c rest ihc =>
        intro hcs acc0 hacc0 hx0
        refine ihc (fun c2 h2 => hcs c2 (List.mem_cons_of_mem _ h2)) _
          ?_ hx0
        intro y hy
        rcases ih c _ y hy with hy2 | hy2
        · exact hacc0 y hy2
        · right
          have hcb : parentOf order c = some b :=
            hcs c (List.mem_cons_self _ _)
          rcases hy2 with rfl | hy3
          · exact Or.inr (AncF.step hcb)
          · exact Or.inr (ancF_snoc hy3 hcb)
    refine aux _ hchild (b :: acc) ?_ hx
    intro y hy
    rcases List.mem_cons.1 hy with rfl | hy2
    · exact Or.inr (Or.inl rfl)
    · exact Or.inl hy2

/-- Soundness of the dragged closure: every id in `items_to_move` is a
dragged id or a descendant of one. -/
theorem items_to_move_sound {order : List BranchState} {dragged : List Nat}
    (hnodup : (order.map (fun bs => bs.id)).Nodup) {x : Nat}
    (hx : x ∈ items_to_move dragged order) :
    ∃ d ∈ dragged, AncSelfF (parentOf order) x d := by
  rw [items_to_move] at hx
  have aux : ∀ (ds : List Nat), (∀ d ∈ ds, d ∈ dragged) →
      ∀ (acc : List Nat), (∀ y ∈ acc, ∃ d ∈ dragged,
        AncSelfF (parentOf order) y d) →
      x ∈ ds.foldl
        (fun acc id =>
          collect_branch_and_descendants (order.length + 1) id acc order)
        acc →
      ∃ d ∈ dragged, AncSelfF (parentOf order) x d := by
    intro ds
    induction ds with
    | nil =>
      intro _ acc hacc hx0
      exact hacc x hx0
    | cons a rest ihd =>
      intro hds acc hacc hx0
      refine ihd (fun d hd => hds d (List.mem_cons_of_mem _ hd)) _ ?_ hx0
      intro y hy
      rcases collect_sound hnodup _ a acc y hy with hy2 | hy2
      · exact hacc y hy2
      · exact ⟨a, hds a (List.mem_cons_self _ _), hy2⟩
  exact aux dragged (fun d hd => hd) [] (by intro y hy; cases hy) hx


/-- Ids of the kept partition stay duplicate-free. -/
theorem kept_map_id_nodup {order : List BranchState} {dragged : List Nat}
    (hnodup : (order.map (fun bs => bs.id)).Nodup) :
    ((kept_of order dragged).map (fun bs => bs.id)).Nodup :=
  List.Sublist.nodup
    (List.Sublist.map _ (by rw [kept_of]; exact List.filter_sublist order))
    hnodup

/-- Ids of the removed partition stay duplicate-free. -/
theorem removed_map_id_nodup {order : List BranchState} {dragged : List Nat}
    (hnodup : (order.map (fun bs => bs.id)).Nodup) :
    ((removed_of order dragged).map (fun bs => bs.id)).Nodup :=
  List.Sublist.nodup
    (List.Sublist.map _ (by rw [removed_of]; exact List.filter_sublist order))
    hnodup

/-- The reassignment function preserves every entry's id. -/
theorem reassign_fun_id (dragged : List Nat) (np : Option Nat) (nbd : Nat)
    (dc : Int) (a : BranchState) :
    (if dragged.contains a.id then
      ({ a with parent_id := np, depth := nbd } : BranchState)
    else { a with depth := ((a.depth : Int) + dc).toNat }).id = a.id := by
  by_cases h : dragged.contains a.id
  · rw [if_pos h]
  · rw [if_neg h]

/-- Parent map of the spliced reorder result: dragged ids with an entry
get the computed new parent; everything else keeps its resolved parent. -/
theorem parentOf_spliced {order : List BranchState} {dragged : List Nat}
    (hnodup : (order.map (fun bs => bs.id)).Nodup)
    (np : Option Nat) (nbd : Nat) (dc : Int) (i : Nat) (x : Nat) :
    parentOf ((kept_of order dragged).take i ++
        reassign_removed (removed_of order dragged) dragged np nbd dc ++
        (kept_of order dragged).drop i) x =
      if x ∈ dragged ∧ x ∈ order.map (fun bs => bs.id) then np
      else parentOf order x := by
  have hkept_nodup := @kept_map_id_nodup order dragged hnodup
  have hremoved_nodup := @removed_map_id_nodup order dragged hnodup
  have hmoved : (reassign_removed (removed_of order dragged) dragged np nbd
      dc).find? (fun bs => bs.id = x) =
      ((removed_of order dragged).find? (fun bs => bs.id = x)).map
        (fun a => if dragged.contains a.id then
          ({ a with parent_id := np, depth := nbd } : BranchState)
        else { a with depth := ((a.depth : Int) + dc).toNat }) := by
    rw [reassign_removed]
    exact find?_map_id_pres (reassign_fun_id dragged np nbd dc)
  have hsplit : ((kept_of order dragged).take i ++
      reassign_removed (removed_of order dragged) dragged np nbd dc ++
      (kept_of order dragged).drop i).find? (fun bs => bs.id = x) =
      (((kept_of order dragged).take i).find? (fun bs => bs.id = x)).or
        (((reassign_removed (removed_of order dragged) dragged np nbd
          dc).find? (fun bs => bs.id = x)).or
          (((kept_of order dragged).drop i).find? (fun bs => bs.id = x))) := by
    rw [List.append_assoc, List.find?_append, List.find?_append]
  have hkeptsplit : (kept_of order dragged).find? (fun bs => bs.id = x) =
      (((kept_of order dragged).take i).find? (fun bs => bs.id = x)).or
        (((kept_of order dragged).drop i).find? (fun bs => bs.id = x)) := by
    conv =>
      lhs
      rw [← List.take_append_drop i (kept_of order dragged)]
    rw [List.find?_append]
  rw [parentOf, hsplit]
  cases hfind : order.find? (fun bs => bs.id = x) with
  | none =>
    have hnoid : ∀ y ∈ order, y.id ≠ x := by
      intro y hy hcontra
      have := List.find?_eq_none.1 hfind y hy
      simp [hcontra] at this
    have hkept : (kept_of order dragged).find? (fun bs => bs.id = x) =
        none := by
      rw [List.find?_eq_none]
      intro y hy
      simp only [decide_eq_true_eq]
      exact hnoid y (List.mem_of_mem_filter (by rw [kept_of] at hy; exact hy))
    have hrem : (removed_of order dragged).find? (fun bs => bs.id = x) =
        none := by
      rw [List.find?_eq_none]
      intro y hy
      simp only [decide_eq_true_eq]
      exact hnoid y
        (List.mem_of_mem_filter (by rw [removed_of] at hy; exact hy))
    have htake : ((kept_of order dragged).take i).find?
        (fun bs => bs.id = x) = none := by
      rw [List.find?_eq_none]
      intro y hy
      exact List.find?_eq_none.1 hkept y (List.mem_of_mem_take hy)
    have hdrop : ((kept_of order dragged).drop i).find?
        (fun bs => bs.id = x) = none := by
      rw [List.find?_eq_none]
      intro y hy
      exact List.find?_eq_none.1 hkept y (List.mem_of_mem_drop hy)
    rw [htake, hdrop, hmoved, hrem]
    have hnotin : ¬ (x ∈ dragged ∧ x ∈ order.map (fun bs => bs.id)) := by
      rintro ⟨_, hmem⟩
      rcases List.mem_map.1 hmem with ⟨y, hy, rfl⟩
      exact hnoid y hy rfl
    rw [if_neg hnotin, parentOf, hfind]
    rfl
  | some e =>
    have he : e ∈ order := List.mem_of_find?_eq_some hfind
    have hid : e.id = x := by
      have := List.find?_some hfind
      simpa using this
    have hxmem : x ∈ order.map (fun bs => bs.id) :=
      hid ▸ List.mem_map_of_mem _ he
    by_cases hmove : e.id ∈ items_to_move dragged order
    · -- e is removed
      have herem : e ∈ removed_of order dragged := by
        rw [removed_of, List.mem_filter]
        exact ⟨he, contains_iff.2 hmove⟩
      have hkept : (kept_of order dragged).find? (fun bs => bs.id = x) =
          none := by
        rw [List.find?_eq_none]
        intro y hy
        simp only [decide_eq_true_eq]
        intro hcontra
        rw [kept_of, List.mem_filter] at hy
        have hy2 : y = e := mem_id_unique hnodup hy.1 he (hcontra.trans hid.symm)
        subst hy2
        rw [contains_iff.2 hmove] at hy
        simp at hy
      have htake : ((kept_of order dragged).take i).find?
          (fun bs => bs.id = x) = none := by
        rw [List.find?_eq_none]
        intro y hy
        exact List.find?_eq_none.1 hkept y (List.mem_of_mem_take hy)
      have hdrop : ((kept_of order dragged).drop i).find?
          (fun bs => bs.id = x) = none := by
        rw [List.find?_eq_none]
        intro y hy
        exact List.find?_eq_none.1 hkept y (List.mem_of_mem_drop hy)
      have hremfind : (removed_of order dragged).find?
          (fun bs => bs.id = x) = some e := by
        have := find?_of_mem_nodup hremoved_nodup herem
        rw [hid] at this
        exact this
      rw [htake, hmoved, hremfind, hdrop]
      simp only [Option.map_some', Option.none_or]
      by_cases hdrag : x ∈ dragged
      · have hcond : x ∈ dragged ∧ x ∈ order.map (fun bs => bs.id) :=
          ⟨hdrag, hxmem⟩
        rw [if_pos hcond]
        rw [Option.or_some]
        simp only [Option.some_bind]
        have hcont : dragged.contains e.id = true := by
          rw [hid]
          exact contains_iff.2 hdrag
        rw [if_pos hcont]
      · have hcond : ¬ (x ∈ dragged ∧ x ∈ order.map (fun bs => bs.id)) := by
          rintro ⟨h1, _⟩
          exact hdrag h1
        rw [if_neg hcond]
        rw [Option.or_some]
        simp only [Option.some_bind]
        have hcont : ¬ dragged.contains e.id = true := by
          intro h
          apply hdrag
          rw [← hid]
          exact contains_iff.1 h
        rw [if_neg hcont]
        rw [parentOf, hfind]
        rfl
    · -- e is kept
      have hekept : e ∈ kept_of order dragged := by
        rw [kept_of, List.mem_filter]
        refine ⟨he, ?_⟩
        rw [Bool.not_eq_eq_eq_not]
        simp only [Bool.not_true]
        by_contra hcontra
        simp only [Bool.not_eq_false] at hcontra
        exact hmove (contains_iff.1 hcontra)
      have hrem : (removed_of order dragged).find? (fun bs => bs.id = x) =
          none := by
        rw [List.find?_eq_none]
        intro y hy
        simp only [decide_eq_true_eq]
        intro hcontra
        rw [removed_of, List.mem_filter] at hy
        have hy2 : y = e := mem_id_unique hnodup hy.1 he (hcontra.trans hid.symm)
        subst hy2
        rw [contains_iff] at hy
        exact hmove hy.2
      have hkept : (kept_of order dragged).find? (fun bs => bs.id = x) =
          some e := by
        have := find?_of_mem_nodup hkept_nodup hekept
        rw [hid] at this
        exact this
      have hnotdrag : x ∉ dragged := by
        intro hcontra
        exact hmove (hid ▸ dragged_mem_items_to_move hcontra)
      rw [hmoved, hrem]
      simp only [Option.map_none', Option.none_or]
      rw [← hkeptsplit, hkept]
      simp only [Option.some_bind]
      rw [if_neg (by rintro ⟨h1, _⟩; exact hnotdrag h1)]
      rw [parentOf, hfind]
      rfl


/-- The abstract no-cycle argument: re-pointing an arbitrary set of nodes
`D` at a single new parent `NP` preserves acyclicity, provided no node of
`D` is the re-parent target `t` or one of its ancestors, and `NP` is `t`
itself, `t`'s parent, or nothing. -/
theorem isForestF_update {po g : Nat → Option Nat} {D : Nat → Prop}
    {NP : Option Nat} {t : Nat}
    (hforest : IsForestF po)
    (hD : ∀ d, D d → ¬ AncSelfF po t d)
    (hNP : ∀ p, NP = some p → AncSelfF po t p)
    (hgD : ∀ x, D x → g x = NP)
    (hgn : ∀ x, ¬ D x → g x = po x) :
    IsForestF g := by
  have hAnotD : ∀ y, AncSelfF po t y → ¬ D y := fun y hy hDy => hD y hDy hy
  have hAclosed : ∀ y p, AncSelfF po t y → po y = some p →
      AncSelfF po t p :=
    fun y p hy hp => ancSelfF_trans hy (Or.inr (AncF.step hp))
  have L : ∀ z w, AncF g z w → AncSelfF po t z →
      AncF po z w ∧ AncSelfF po t w := by
    intro z w h
    induction h with
    | @step x y hstep =>
      intro hz
      have hnd := hAnotD _ hz
      rw [hgn _ hnd] at hstep
      exact ⟨AncF.step hstep, hAclosed _ _ hz hstep⟩
    | @trans x y w2 hstep _ ih =>
      intro hz
      have hnd := hAnotD _ hz
      rw [hgn _ hnd] at hstep
      have hy := hAclosed _ _ hz hstep
      rcases ih hy with ⟨h1, h2⟩
      exact ⟨AncF.trans hstep h1, h2⟩
  have M : ∀ z w, AncF g z w → AncF po z w ∨ AncSelfF po t w := by
    intro z w h
    induction h with
    | @step x y hstep =>
      by_cases hDx : D x
      · rw [hgD _ hDx] at hstep
        exact Or.inr (hNP _ hstep)
      · rw [hgn _ hDx] at hstep
        exact Or.inl (AncF.step hstep)
    | @trans x y w2 hstep hanc ih =>
      rcases ih with h1 | h1
      · by_cases hDx : D x
        · rw [hgD _ hDx] at hstep
          have hy := hNP _ hstep
          exact Or.inr (L _ _ hanc hy).2
        · rw [hgn _ hDx] at hstep
          exact Or.inl (AncF.trans hstep h1)
      · exact Or.inr h1
  intro x hx
  rcases M x x hx with h1 | h1
  · exact hforest x h1
  · exact hforest x (L x x hx h1).1

/-- Ids of the spliced reorder result stay duplicate-free. -/
theorem spliced_ids_nodup {order : List BranchState} {dragged : List Nat}
    (hnodup : (order.map (fun bs => bs.id)).Nodup)
    (np : Option Nat) (nbd : Nat) (dc : Int) (i : Nat) :
    (((kept_of order dragged).take i ++
        reassign_removed (removed_of order dragged) dragged np nbd dc ++
        (kept_of order dragged).drop i).map (fun bs => bs.id)).Nodup := by
  have hperm1 : ((kept_of order dragged).take i ++
      reassign_removed (removed_of order dragged) dragged np nbd dc ++
      (kept_of order dragged).drop i).map (fun bs => bs.id) =
      ((kept_of order dragged).take i).map (fun bs => bs.id) ++
        (removed_of order dragged).map (fun bs => bs.id) ++
        ((kept_of order dragged).drop i).map (fun bs => bs.id) := by
    rw [List.map_append, List.map_append, reassign_removed_map_id]
  rw [hperm1]
  have hKAB : ((kept_of order dragged).take i).map (fun bs => bs.id) ++
      ((kept_of order dragged).drop i).map (fun bs => bs.id) =
      (kept_of order dragged).map (fun bs => bs.id) := by
    rw [← List.map_append, List.take_append_drop]
  have hperm3 : ((kept_of order dragged).map (fun bs => bs.id) ++
      (removed_of order dragged).map (fun bs => bs.id)).Perm
      (order.map (fun bs => bs.id)) := by
    have hfp := List.filter_append_perm
      (fun bs => ! (items_to_move dragged order).contains bs.id) order
    have hre : order.filter
        (fun a => ! (! (items_to_move dragged order).contains a.id)) =
        order.filter
          (fun a => (items_to_move dragged order).contains a.id) := by
      apply List.filter_congr
      intro a _
      rw [Bool.not_not]
    rw [hre] at hfp
    rw [kept_of, removed_of, ← List.map_append]
    exact List.Perm.map _ hfp
  have hbig : (((kept_of order dragged).take i).map (fun bs => bs.id) ++
      (removed_of order dragged).map (fun bs => bs.id) ++
      ((kept_of order dragged).drop i).map (fun bs => bs.id)).Perm
      (order.map (fun bs => bs.id)) := by
    rw [List.append_assoc]
    refine List.Perm.trans
      (List.Perm.append_left _ List.perm_append_comm) ?_
    rw [← List.append_assoc, hKAB]
    exact hperm3
  exact hbig.symm.nodup hnodup

/-- The computed new parent is always `none`, the target's effective
parent, or the target itself. -/
theorem new_parent_cases (kept : List BranchState) (t : Nat)
    (ts : BranchState) (pos : DropPosition) :
    (new_parent_base_depth kept t ts pos).1 = none ∨
    (new_parent_base_depth kept t ts pos).1 = ts.parent_id ∨
    (new_parent_base_depth kept t ts pos).1 = some t := by
  cases pos with
  | Before => exact Or.inr (Or.inl rfl)
  | Into => exact Or.inr (Or.inr rfl)
  | After =>
    rw [new_parent_base_depth]
    dsimp only
    split
    · split
      · exact Or.inl rfl
      · exact Or.inr (Or.inl rfl)
    · exact Or.inr (Or.inl rfl)


/-! ### Claim C1 — no-cycle invariant (amended) -/

/-- **C1** (amended): for every well-formed `branch_order` (one entry per
id, no entry its own ancestor) and every drag commit whose target is
neither a dragged id nor a descendant of one, `reorder_branches` produces
an order (no out-of-bounds insertion, provided the target has an entry),
and *any* order it produces is again a forest — so along any sequence of
such reorders no internal id ever becomes its own ancestor. -/
theorem c1_forest_preserved (order : List BranchState) (dragged : List Nat)
    (target : Nat) (pos : DropPosition)
    (hwf : WFOrder order)
    (htarget : ∀ d ∈ dragged, ¬ AncSelfF (parentOf order) target d) :
    (target ∈ order.map (fun bs => bs.id) →
      ∃ res, reorder_branches order dragged target pos = some res) ∧
    (∀ res, reorder_branches order dragged target pos = some res →
      WFOrder res) := by
  obtain ⟨hnodup, hforest⟩ := hwf
  constructor
  · intro hmem
    rcases List.mem_map.1 hmem with ⟨e, he, hid⟩
    have hnotmove : e.id ∉ items_to_move dragged order := by
      intro hcontra
      rcases items_to_move_sound hnodup hcontra with ⟨d, hd, hanc⟩
      rw [hid] at hanc
      exact htarget d hd hanc
    have hekept : e ∈ kept_of order dragged := by
      rw [kept_of, List.mem_filter]
      refine ⟨he, ?_⟩
      rw [Bool.not_eq_eq_eq_not, Bool.not_true]
      by_contra hcontra
      simp only [Bool.not_eq_false] at hcontra
      exact hnotmove (contains_iff.1 hcontra)
    have hfindsome : ∃ j, (kept_of order dragged).findIdx?
        (fun bs => bs.id = target) = some j := by
      cases hfi : (kept_of order dragged).findIdx?
          (fun bs => bs.id = target) with
      | none =>
        exfalso
        have := List.findIdx?_eq_none_iff.1 hfi e hekept
        rw [hid] at this
        simp at this
      | some j => exact ⟨j, rfl⟩
    rcases hfindsome with ⟨j, hj⟩
    rw [reorder_branches_def]
    exact ⟨_, insert_items_spec _ _ _ (insertion_index_le pos hj)⟩
  · intro res hres
    rw [reorder_branches_def] at hres
    have hsplice := insert_items_eq_splice hres
    subst hsplice
    refine ⟨spliced_ids_nodup hnodup _ _ _ _, ?_⟩
    have hchar := @parentOf_spliced order dragged hnodup
      (new_parent_base_depth (kept_of order dragged) target
        (target_state_of order target) pos).1
      (new_parent_base_depth (kept_of order dragged) target
        (target_state_of order target) pos).2
      (((new_parent_base_depth (kept_of order dragged) target
          (target_state_of order target) pos).2 : Int) -
        (old_depth_of order dragged : Int))
      (insertion_index (kept_of order dragged) target pos)
    refine @isForestF_update (parentOf order) _
      (fun x => x ∈ dragged ∧ x ∈ order.map (fun bs => bs.id))
      (new_parent_base_depth (kept_of order dragged) target
        (target_state_of order target) pos).1
      target hforest ?_ ?_ ?_ ?_
    · rintro d ⟨hd, _⟩
      exact htarget d hd
    · intro p hp
      rcases new_parent_cases (kept_of order dragged) target
        (target_state_of order target) pos with h0 | h1 | h2
      · rw [h0] at hp
        cases hp
      · rw [h1, ts_parent_eq hnodup] at hp
        exact Or.inr (AncF.step hp)
      · rw [h2] at hp
        exact Or.inl (Option.some_inj.1 hp)
    · intro x hx
      rw [hchar x, if_pos hx]
    · intro x hx
      rw [hchar x, if_neg hx]

/-- **C1 counterexample** to the claim as stated (any dragged set, any
target): dragging node 0 with drop target its own child 1 and position
`Before` re-parents 0 under itself — the produced order has a cycle, so
the universally quantified claim is false without excluding targets
inside the dragged subtree. -/
theorem c1_counterexample :
    WFOrder [⟨0, none, 0⟩, ⟨1, some 0, 1⟩] ∧
    reorder_branches [⟨0, none, 0⟩, ⟨1, some 0, 1⟩] [0] 1
      DropPosition.Before = some [⟨0, some 0, 1⟩, ⟨1, some 0, 2⟩] ∧
    ¬ WFOrder [⟨0, some 0, 1⟩, ⟨1, some 0, 2⟩] := by
  refine ⟨⟨by decide, isForestF_of_depth_decreasing (by decide)⟩, rfl, ?_⟩
  rintro ⟨_, hforest⟩
  exact hforest 0 (AncF.step rfl)

/-- Witness for C1: a legitimate `Into` drop (drag 1 into 0, both roots)
produces an order, and that order is again well-formed. -/
theorem c1_witness :
    (∃ res, reorder_branches [⟨0, none, 0⟩, ⟨1, none, 0⟩] [1] 0
      DropPosition.Into = some res) ∧
    WFOrder [⟨0, none, 0⟩, ⟨1, some 0, 1⟩] := by
  have h := c1_forest_preserved [⟨0, none, 0⟩, ⟨1, none, 0⟩] [1] 0
    DropPosition.Into
    ⟨by decide, isForestF_of_depth_decreasing (by decide)⟩
    (by
      intro d hd
      have hd1 : d = 1 := by simpa using hd
      subst hd1
      rintro (h | h)
      · exact absurd h (by decide)
      · rcases ancF_inv h with ⟨p, hp, _⟩
        rw [show parentOf [⟨0, none, 0⟩, ⟨1, none, 0⟩] 0 = none from rfl]
          at hp
        cases hp)
  exact ⟨h.1 (by decide), h.2 [⟨0, none, 0⟩, ⟨1, some 0, 1⟩] rfl⟩

/-! ### Claim C8 — visibility characterization -/

/-- Generic one-entry-per-key `find?` resolution. -/
theorem find?_key_of_mem_nodup {α : Type} (key : α → Nat) {l : List α}
    {e : α} (hnodup : (l.map key).Nodup) (hmem : e ∈ l) :
    l.find? (fun a => key a = key e) = some e := by
  induction l with
  | nil => cases hmem
  | cons a rest ih =>
    simp only [List.map_cons, List.nodup_cons] at hnodup
    rcases List.mem_cons.1 hmem with rfl | hmem'
    · exact List.find?_cons_of_pos rest (by simp)
    · have hne : key a ≠ key e := by
        intro hcontra
        exact hnodup.1 (hcontra ▸ List.mem_map_of_mem key hmem')
      rw [List.find?_cons_of_neg rest (by simp [hne])]
      exact ih hnodup.2 hmem'

/-- The id component of `get_branch_info` is the descriptor's own id. -/
theorem get_branch_info_fst (branches : List Branch_)
    (branch_order : Option (List BranchState)) (i : Nat)
    (hi : i < branches.length) :
    (get_branch_info branches branch_order i).1 =
      (branches.get ⟨i, hi⟩).id := by
  unfold get_branch_info
  rw [List.getD_eq_getElem branches default hi]
  cases branch_order with
  | none => rfl
  | some order =>
    rcases hf : order.find? (fun bs => bs.id = branches[i].id) with _ | bs <;>
      simp [hf]

/-- With one descriptor per id, the parent component of `get_branch_info`
is the resolved parent of the descriptor's id. -/
theorem get_branch_info_parent (branches : List Branch_)
    (branch_order : Option (List BranchState))
    (hnodup : (branches.map (fun b => b.id)).Nodup) (i : Nat)
    (hi : i < branches.length) :
    (get_branch_info branches branch_order i).2.1 =
      resolved_parent branches branch_order ((branches.get ⟨i, hi⟩).id) := by
  have hfind :
      branches.find? (fun b => b.id = (branches.get ⟨i, hi⟩).id) =
        some (branches.get ⟨i, hi⟩) :=
    find?_key_of_mem_nodup (fun b => b.id) hnodup (branches.get_mem i hi)
  unfold get_branch_info resolved_parent
  rw [List.getD_eq_getElem branches default hi, hfind]
  cases branch_order with
  | none => simp
  | some order =>
    rcases hf : order.find? (fun bs => bs.id = branches[i].id) with _ | bs <;>
      simp [hf]

/-- Unfolding `is_branch_visible` at positive fuel for an in-bounds index. -/
theorem is_branch_visible_succ (branches : List Branch_) (expanded : List Nat)
    (drag_active : Option DragActive)
    (branch_order : Option (List BranchState)) (fuel i : Nat)
    (hi : i < branches.length) :
    is_branch_visible branches expanded drag_active branch_order (fuel + 1) i =
      (if visible_drag_blocked branches branch_order drag_active
            (get_branch_info branches branch_order i) then false
       else
         match (get_branch_info branches branch_order i).2.1 with
         | none => true
         | some p =>
           match branches.findIdx? (fun b => b.id = p) with
           | some parent_index =>
             is_branch_visible branches expanded drag_active branch_order
               fuel parent_index && expanded.contains p
           | none => false) := by
  rw [is_branch_visible, if_neg (by omega)]

/-- An empty dragged set never blocks the ancestor walk. -/
theorem dragged_ancestor_walk_nil (branches : List Branch_)
    (branch_order : Option (List BranchState)) :
    ∀ fuel cur, dragged_ancestor_walk branches branch_order [] fuel cur =
      false := by
  intro fuel
  induction fuel with
  | zero => intro cur; rfl
  | succ fuel ih =>
    intro cur
    rw [dragged_ancestor_walk]
    cases hfi : branches.findIdx? (fun b => b.id = cur) with
    | none => rfl
    | some pidx =>
      simp only [List.contains_nil, if_false]
      cases (get_branch_info branches branch_order pidx).2.1 with
      | none => rfl
      | some np => exact ih np

/-- The blocked test on a root-parent info triple is membership of the id. -/
theorem blocked_none_parent (branches : List Branch_)
    (branch_order : Option (List BranchState))
    (drag_active : Option DragActive) (id d3 : Nat) :
    visible_drag_blocked branches branch_order drag_active (id, none, d3) =
      (dragged_of drag_active).contains id := by
  cases drag_active with
  | none => simp [visible_drag_blocked, dragged_of]
  | some d => simp [visible_drag_blocked, dragged_of]

/-- The blocked test on a parented info triple: id dragged, parent dragged,
or the ancestor walk from the parent hits a dragged id. -/
theorem blocked_some_parent (branches : List Branch_)
    (branch_order : Option (List BranchState))
    (drag_active : Option DragActive) (id p d3 : Nat) :
    visible_drag_blocked branches branch_order drag_active (id, some p, d3) =
      ((dragged_of drag_active).contains id ||
        (dragged_of drag_active).contains p ||
        dragged_ancestor_walk branches branch_order
          (dragged_of drag_active) (branches.length + 1) p) := by
  cases drag_active with
  | none => simp [visible_drag_blocked, dragged_of, dragged_ancestor_walk_nil]
  | some d => simp [visible_drag_blocked, dragged_of, Bool.or_assoc]


/-- Soundness of the ancestor walk: a `true` answer exhibits a dragged id
that is `cur` itself or a resolved-parent ancestor of `cur`. -/
theorem dragged_ancestor_walk_sound (branches : List Branch_)
    (branch_order : Option (List BranchState)) (dragged : List Nat)
    (hnodup : (branches.map (fun b => b.id)).Nodup) :
    ∀ fuel cur,
      dragged_ancestor_walk branches branch_order dragged fuel cur = true →
      ∃ a, AncSelfF (resolved_parent branches branch_order) cur a ∧
        a ∈ dragged := by
  intro fuel
  induction fuel with
  | zero => intro cur h; simp [dragged_ancestor_walk] at h
  | succ fuel ih =>
    intro cur h
    rw [dragged_ancestor_walk] at h
    cases hfi : branches.findIdx? (fun b => b.id = cur) with
    | none => simp [hfi] at h
    | some pidx =>
      simp only [hfi] at h
      by_cases hc : dragged.contains cur = true
      · exact ⟨cur, Or.inl rfl, contains_iff.1 hc⟩
      · rw [if_neg hc] at h
        obtain ⟨hpidx, hpred, _⟩ := findIdx?_spec hfi
        have hpid : (branches.get ⟨pidx, hpidx⟩).id = cur :=
          of_decide_eq_true hpred
        cases hnp : (get_branch_info branches branch_order pidx).2.1 with
        | none => rw [hnp] at h; cases h
        | some np =>
          rw [hnp] at h
          rcases ih np h with ⟨a, ha, hmem⟩
          have hrp : resolved_parent branches branch_order cur = some np := by
            rw [← hpid, ← get_branch_info_parent branches branch_order
              hnodup pidx hpidx]
            exact hnp
          exact ⟨a, Or.inr (ancF_of_ancSelf_step hrp ha), hmem⟩

/-- `resolved_forest_check` is a sound forest test: resolved parent ids
strictly decrease, so no resolved-parent cycle can close. -/
theorem isForestF_resolved_of_check (branches : List Branch_)
    (branch_order : Option (List BranchState))
    (h : resolved_forest_check branches branch_order = true) :
    IsForestF (resolved_parent branches branch_order) := by
  apply isForestF_of_measure (fun x => x)
  intro x p hx
  rcases hf : branches.find? (fun b => b.id = x) with _ | b
  · rw [resolved_parent, hf] at hx; cases hx
  · have hbmem := List.mem_of_find?_eq_some hf
    have hbid : b.id = x := by simpa using List.find?_some hf
    have hall := (List.all_eq_true.1 h) b hbmem
    have hrpx : resolved_parent branches branch_order b.id = some p := by
      rw [hbid, resolved_parent, hf]
      rw [resolved_parent, hf] at hx
      exact hx
    rw [hrpx] at hall
    have hall2 : decide (p < b.id) = true := hall
    rw [hbid] at hall2
    exact of_decide_eq_true hall2


/-- Visibility at a root-parented branch: blocked by its own id only. -/
theorem vis_succ_root (branches : List Branch_) (expanded : List Nat)
    (drag_active : Option DragActive)
    (branch_order : Option (List BranchState)) (fuel i : Nat)
    (hi : i < branches.length)
    (hrp : (get_branch_info branches branch_order i).2.1 = none) :
    is_branch_visible branches expanded drag_active branch_order (fuel + 1) i
      = !((dragged_of drag_active).contains
          (get_branch_info branches branch_order i).1) := by
  rw [is_branch_visible_succ branches expanded drag_active branch_order
    fuel i hi]
  have hinfo : get_branch_info branches branch_order i =
      ((get_branch_info branches branch_order i).1, none,
        (get_branch_info branches branch_order i).2.2) := by
    rw [← hrp]
  rw [hinfo, blocked_none_parent]
  cases hc : (dragged_of drag_active).contains
      (get_branch_info branches branch_order i).1 with
  | true => rw [if_pos rfl]; rfl
  | false => rw [if_neg (by decide)]; rfl

/-- Visibility at a parented branch: the drag checks, then the parent's
visibility and expansion. -/
theorem vis_succ_parent (branches : List Branch_) (expanded : List Nat)
    (drag_active : Option DragActive)
    (branch_order : Option (List BranchState)) (fuel i p : Nat)
    (hi : i < branches.length)
    (hrp : (get_branch_info branches branch_order i).2.1 = some p) :
    is_branch_visible branches expanded drag_active branch_order (fuel + 1) i
      = (if ((dragged_of drag_active).contains
              (get_branch_info branches branch_order i).1 ||
            (dragged_of drag_active).contains p ||
            dragged_ancestor_walk branches branch_order
              (dragged_of drag_active) (branches.length + 1) p) then false
         else
           match branches.findIdx? (fun b => b.id = p) with
           | some parent_index =>
             is_branch_visible branches expanded drag_active branch_order
               fuel parent_index && expanded.contains p
           | none => false) := by
  rw [is_branch_visible_succ branches expanded drag_active branch_order
    fuel i hi]
  have hinfo : get_branch_info branches branch_order i =
      ((get_branch_info branches branch_order i).1, some p,
        (get_branch_info branches branch_order i).2.2) := by
    rw [← hrp]
  rw [hinfo, blocked_some_parent]


/-- Chain-bound induction behind C8: once the resolved-parent walk from a
branch's id dies within `m` steps, visibility at any fuel ≥ `m` matches the
spec's invisibility characterization. -/
theorem vis_char_aux (branches : List Branch_) (expanded : List Nat)
    (drag_active : Option DragActive)
    (branch_order : Option (List BranchState))
    (hnodup : (branches.map (fun b => b.id)).Nodup) :
    ∀ m, m ≤ branches.length + 1 → ∀ fuel, m ≤ fuel →
      ∀ i, ∀ hi : i < branches.length,
      iterPar (resolved_parent branches branch_order) m
          ((branches.get ⟨i, hi⟩).id) = none →
      (is_branch_visible branches expanded drag_active branch_order fuel i
          = false ↔
        (∃ a, AncSelfF (resolved_parent branches branch_order)
            ((branches.get ⟨i, hi⟩).id) a ∧ a ∈ dragged_of drag_active) ∨
        (∃ p, resolved_parent branches branch_order
              ((branches.get ⟨i, hi⟩).id) = some p ∧
          ¬ (id_visible branches expanded drag_active branch_order p = true ∧
              p ∈ expanded))) := by
  intro m
  induction m with
  | zero =>
    intro _ fuel _ i hi hchain
    simp [iterPar] at hchain
  | succ m ih =>
    intro hm fuel hfuel i hi hchain
    obtain ⟨f, rfl⟩ : ∃ f, fuel = f + 1 := ⟨fuel - 1, by omega⟩
    have hfst := get_branch_info_fst branches branch_order i hi
    have hpar := get_branch_info_parent branches branch_order hnodup i hi
    cases hrp : resolved_parent branches branch_order
        ((branches.get ⟨i, hi⟩).id) with
    | none =>
      rw [vis_succ_root branches expanded drag_active branch_order f i hi
        (hpar.trans hrp), hfst]
      constructor
      · intro h
        have hc : (dragged_of drag_active).contains
            ((branches.get ⟨i, hi⟩).id) = true := by
          cases hcc : (dragged_of drag_active).contains
              ((branches.get ⟨i, hi⟩).id) with
          | true => rfl
          | false => rw [hcc] at h; simp at h
        exact Or.inl ⟨(branches.get ⟨i, hi⟩).id, Or.inl rfl,
          contains_iff.1 hc⟩
      · rintro (⟨a, ha, hmem⟩ | ⟨p, hp, _⟩)
        · cases ha with
          | inl heq =>
            have hmem' : (branches.get ⟨i, hi⟩).id ∈ dragged_of
                drag_active := by
              rw [heq]; exact hmem
            rw [contains_iff.2 hmem']
            rfl
          | inr hanc =>
            rcases ancF_inv hanc with ⟨q, hq, _⟩
            rw [hrp] at hq
            exact Option.noConfusion hq
        · exact Option.noConfusion hp
    | some p =>
      rw [iterPar] at hchain
      rw [hrp] at hchain
      simp only [Option.some_bind] at hchain
      rw [vis_succ_parent branches expanded drag_active branch_order f i p hi
        (hpar.trans hrp), hfst]
      cases hB : ((dragged_of drag_active).contains
            ((branches.get ⟨i, hi⟩).id) ||
          (dragged_of drag_active).contains p ||
          dragged_ancestor_walk branches branch_order
            (dragged_of drag_active) (branches.length + 1) p) with
      | true =>
        rw [if_pos rfl]
        constructor
        · intro _
          rcases Bool.or_eq_true_iff.1 hB with h12 | hw
          · rcases Bool.or_eq_true_iff.1 h12 with hc1 | hc2
            · exact Or.inl ⟨(branches.get ⟨i, hi⟩).id, Or.inl rfl,
                contains_iff.1 hc1⟩
            · exact Or.inl ⟨p, Or.inr (AncF.step hrp), contains_iff.1 hc2⟩
          · rcases dragged_ancestor_walk_sound branches branch_order
              (dragged_of drag_active) hnodup (branches.length + 1) p hw with
              ⟨a, ha, hmem⟩
            exact Or.inl ⟨a, Or.inr (ancF_of_ancSelf_step hrp ha), hmem⟩
        · intro _
          rfl
      | false =>
        rw [if_neg (by decide)]
        have hparts := Bool.or_eq_false_iff.1 hB
        have h12 := Bool.or_eq_false_iff.1 hparts.1
        cases hfi : branches.findIdx? (fun b => b.id = p) with
        | none =>
          have hvp : id_visible branches expanded drag_active branch_order p
              = false := by
            rw [id_visible, hfi]
          constructor
          · intro _
            exact Or.inr ⟨p, rfl, fun hcon => by
              rw [hvp] at hcon
              exact Bool.noConfusion hcon.1⟩
          · intro _
            rfl
        | some pidx =>
          obtain ⟨hpidx, hpred, _⟩ := findIdx?_spec hfi
          have hpid : (branches.get ⟨pidx, hpidx⟩).id = p :=
            of_decide_eq_true hpred
          have hchain_p : iterPar (resolved_parent branches branch_order) m
              ((branches.get ⟨pidx, hpidx⟩).id) = none := by
            rw [hpid]; exact hchain
          have ihf := ih (by omega) f (by omega) pidx hpidx hchain_p
          have ihN := ih (by omega) (branches.length + 1) (by omega) pidx
            hpidx hchain_p
          rw [hpid] at ihf ihN
          have hidv : id_visible branches expanded drag_active branch_order p
              = is_branch_visible branches expanded drag_active branch_order
                (branches.length + 1) pidx := by
            rw [id_visible, hfi]
          show (is_branch_visible branches expanded drag_active branch_order
              f pidx && expanded.contains p) = false ↔ _
          constructor
          · intro h
            rcases Bool.and_eq_false_iff.1 h with hvf | hce
            · have hR := ihf.1 hvf
              have hvN := ihN.2 hR
              refine Or.inr ⟨p, rfl, fun hcon => ?_⟩
              rw [hidv, hvN] at hcon
              exact Bool.noConfusion hcon.1
            · refine Or.inr ⟨p, rfl, fun hcon => ?_⟩
              rw [contains_iff.2 hcon.2] at hce
              exact Bool.noConfusion hce
          · rintro (⟨a, ha, hmem⟩ | ⟨p', hp', hnot⟩)
            · cases ha with
              | inl heq =>
                have hmem' : (branches.get ⟨i, hi⟩).id ∈ dragged_of
                    drag_active := by
                  rw [heq]; exact hmem
                have hfalse := h12.1
                rw [contains_iff.2 hmem'] at hfalse
                exact Bool.noConfusion hfalse
              | inr hanc =>
                rcases ancF_inv hanc with ⟨q, hq, hrest⟩
                rw [hrp] at hq
                cases hq
                cases hrest with
                | inl hqa =>
                  have hmem' : p ∈ dragged_of drag_active := by
                    rw [hqa]; exact hmem
                  have hfalse := h12.2
                  rw [contains_iff.2 hmem'] at hfalse
                  exact Bool.noConfusion hfalse
                | inr hpa =>
                  have hvf := ihf.2 (Or.inl ⟨a, Or.inr hpa, hmem⟩)
                  rw [hvf]
                  rfl
            · cases hp'
              by_cases hpe : p ∈ expanded
              · have h1 : ¬ (id_visible branches expanded drag_active
                    branch_order p = true) := fun hv => hnot ⟨hv, hpe⟩
                have h2 := Bool.eq_false_iff.2 h1
                rw [hidv] at h2
                have hvf := ihf.2 (ihN.1 h2)
                rw [hvf]
                rfl
              · have hce : expanded.contains p = false := by
                  cases hcc : expanded.contains p with
                  | true => exact absurd (contains_iff.1 hcc) hpe
                  | false => rfl
                rw [hce, Bool.and_false]


/-- **C8**: over descriptors with unique ids whose resolved parent links
are acyclic, `is_branch_visible` at its canonical fuel returns `false`
exactly when (a) the branch's id or one of its resolved-parent ancestors
is in the dragged set, or (b) the branch has a resolved parent that is not
both visible and contained in the expanded set — branches with no resolved
parent are visible subject only to (a); and concretely, with
`expanded = {A}` on the chain A → B → C, branch A and its child B are
visible while B's child C is not. -/
theorem c8_visibility (branches : List Branch_) (expanded : List Nat)
    (drag_active : Option DragActive)
    (branch_order : Option (List BranchState))
    (hnodup : (branches.map (fun b => b.id)).Nodup)
    (hforest : IsForestF (resolved_parent branches branch_order))
    (i : Nat) (hi : i < branches.length) :
    (is_branch_visible branches expanded drag_active branch_order
        (branches.length + 1) i = false ↔
      (∃ a, AncSelfF (resolved_parent branches branch_order)
          ((branches.get ⟨i, hi⟩).id) a ∧ a ∈ dragged_of drag_active) ∨
      (∃ p, resolved_parent branches branch_order
            ((branches.get ⟨i, hi⟩).id) = some p ∧
        ¬ (id_visible branches expanded drag_active branch_order p = true ∧
            p ∈ expanded))) ∧
    ((List.range 3).map (is_branch_visible c8_branches [0] none none 4) =
      [true, true, false]) := by
  constructor
  · have hs : ∀ x y, resolved_parent branches branch_order x = some y →
        x ∈ (branches.map (fun b => b.id)).toFinset := by
      intro x y hxy
      rcases hf : branches.find? (fun b => b.id = x) with _ | b
      · rw [resolved_parent, hf] at hxy; cases hxy
      · have hbmem := List.mem_of_find?_eq_some hf
        have hbid : b.id = x := by simpa using List.find?_some hf
        rw [List.mem_toFinset]
        exact hbid ▸ List.mem_map_of_mem (fun b => b.id) hbmem
    have hcard : (branches.map (fun b => b.id)).toFinset.card ≤
        branches.length :=
      le_trans (List.toFinset_card_le _) (by simp)
    have hchain := iter_parent_none_of_forest hs hforest
      ((branches.get ⟨i, hi⟩).id)
    exact vis_char_aux branches expanded drag_active branch_order hnodup
      ((branches.map (fun b => b.id)).toFinset.card + 1) (by omega)
      (branches.length + 1) (by omega) i hi hchain
  · decide

/-- Closed instance of `c8_visibility` on the spec's own example. -/
theorem c8_visibility_witness :
    (is_branch_visible c8_branches [0] none none (c8_branches.length + 1) 1
        = false ↔
      (∃ a, AncSelfF (resolved_parent c8_branches none)
          ((c8_branches.get ⟨1, by decide⟩).id) a ∧ a ∈ dragged_of none) ∨
      (∃ p, resolved_parent c8_branches none
            ((c8_branches.get ⟨1, by decide⟩).id) = some p ∧
        ¬ (id_visible c8_branches [0] none none p = true ∧ p ∈ [0]))) ∧
    ((List.range 3).map (is_branch_visible c8_branches [0] none none 4) =
      [true, true, false]) :=
  c8_visibility c8_branches [0] none none (by decide)
    (isForestF_resolved_of_check c8_branches none (by decide)) 1 (by decide)

end Widgets
